import Mathlib

/-!
# Verification of the tjson library (src/tjson.cpp)

A shallow embedding of the tjson parser/writer.  Text is modelled as
`List Char` (the C++ code works on `char` ranges; all concrete inputs in
this development are ASCII, where the two views agree).  The `Val` class is
declared in `tjson.h`, which is not among the sources; its fields and the
`set_dict`/`set_list` mode switches are modelled from the specification
(see the doc comments on `Val`, `Val.set_dict`, `Val.set_list`).
Everything else is translated from `src/tjson.cpp`.
-/

namespace Tjson

/-- Characters matched by `RE_WHITESPACE` = `[ \t\n\r]+`. -/
def isWS (c : Char) : Bool := c = ' ' || c = '\t' || c = '\n' || c = '\r'

/-- Characters matched by `RE_WORD` = `[A-Za-z0-9_+\-.]+`. -/
def isWordChar (c : Char) : Bool :=
  ('A' ≤ c && c ≤ 'Z') || ('a' ≤ c && c ≤ 'z') || ('0' ≤ c && c ≤ '9') ||
  c = '_' || c = '+' || c = '-' || c = '.'

/-- Characters matched by `RE_SYMBOL` = `[{:,}\[\]]`. -/
def isSym (c : Char) : Bool :=
  c = '{' || c = '}' || c = '[' || c = ']' || c = ':' || c = ','

/-- Body of `escape` (tjson.cpp:16-31): each `"` or `\` is prefixed with `\`. -/
def escBody : List Char → List Char
  | [] => []
  | c :: r => (if c = '"' || c = '\\' then ['\\', c] else [c]) ++ escBody r

/-- `escape` (tjson.cpp:16-31): wrap in quotes, backslash-prefix `"` and `\`. -/
def escape (s : List Char) : List Char := '"' :: escBody s ++ ['"']

/-- The character loop of `unescape` (tjson.cpp:44-57), with the `in_escape`
flag threaded exactly as in the source; returns `none` when the input ends
with the flag still set (dangling backslash). -/
def unescLoop : List Char → Bool → Option (List Char)
  | [], inEsc => if inEsc then none else some []
  | c :: r, inEsc =>
    if !inEsc && c = '\\' then unescLoop r true
    else (unescLoop r false).map (fun t => c :: t)

/-- `unescape` (tjson.cpp:33-61): `none` models returning `false`. -/
def unescape (s : List Char) : Option (List Char) :=
  if s.length < 2 then none
  else if !(s.head? = some '"' && s.getLast? = some '"') then none
  else unescLoop (s.drop 1).dropLast false

/-! ## Tokenizer (tjson.cpp:65-155) -/

/-- Token classes; the enum of `Token::Type` (tjson.cpp:67-73). -/
inductive TokTy where
  | malformed
  | whitespace
  | string
  | word
  | symbol
  deriving DecidableEq

/-- Scan the inside of a string literal, after the opening quote, as the
ECMAScript regex `RE_STRING` = `"(:?[^"\\]*(:?\\.)*)*"` does (tjson.cpp:92).
On the characters after the opening quote there is no choice: a bare `"`
can only be the closing quote (it is excluded from `[^"\\]` and an escape
pair must start with `\`), a `\` can only start an escape pair `\\.`
(where ECMAScript `.` excludes line terminators), and any other character
can only be consumed by `[^"\\]`.  Hence the first-match behaviour of the
regex is this deterministic scan.  Returns the consumed characters
(including the closing quote) and the rest. -/
def strScanAux : List Char → Bool → Option (List Char × List Char)
  | [], _ => none
  | c :: r, inEsc =>
    if inEsc then
      if c = '\n' || c = '\r' then none
      else (strScanAux r false).map (fun p => (c :: p.1, p.2))
    else if c = '"' then some (['"'], r)
    else if c = '\\' then (strScanAux r true).map (fun p => (c :: p.1, p.2))
    else (strScanAux r false).map (fun p => (c :: p.1, p.2))

/-- Anchored match of `RE_STRING` at the cursor: the matched token text and
the rest, or `none` when the regex does not match here. -/
def strMatch : List Char → Option (List Char × List Char)
  | [] => none
  | c :: r =>
    if c = '"' then (strScanAux r false).map (fun p => ('"' :: p.1, p.2)) else none

/-- One anchored tokenizing step: the regexes are tried in the order
whitespace, string, word, symbol (tjson.cpp:118-128); if none matches, the
token is `MALFORMED` with zero length.  Returns (type, token text, rest). -/
def tokenAt (s : List Char) : TokTy × List Char × List Char :=
  let w := s.takeWhile isWS
  if w ≠ [] then (.whitespace, w, s.dropWhile isWS)
  else
    match strMatch s with
    | some p => (.string, p.1, p.2)
    | none =>
      let w2 := s.takeWhile isWordChar
      if w2 ≠ [] then (.word, w2, s.dropWhile isWordChar)
      else
        match s with
        | c :: r => if isSym c then (.symbol, [c], r) else (.malformed, [], s)
        | [] => (.malformed, [], [])

/-- Advance the line/column counters over consumed text (tjson.cpp:131-137):
a newline bumps the line and resets the column, every character (newline
included) then advances the column by one. -/
def advLP (l p : Nat) : List Char → Nat × Nat
  | [] => (l, p)
  | c :: r => if c = '\n' then advLP (l + 1) 1 r else advLP l (p + 1) r

/-- A produced token: type, text, and the 1-based line/column of its start. -/
structure Tok where
  ty : TokTy
  txt : List Char
  line : Nat
  pos : Nat
  deriving DecidableEq

/-- The state threaded through tokenizing and parsing: the remaining input
(the `meta_token_` cursor of `TokenGen`), the line/column of the cursor,
and the current contents of `*out_err`. -/
structure PSt where
  rem : List Char
  line : Nat
  pos : Nat
  err : List Char
  deriving DecidableEq

/-- `TokenGen::Next` (tjson.cpp:118-139). -/
def next (st : PSt) : Tok × PSt :=
  let t := tokenAt st.rem
  let lp := advLP st.line st.pos t.2.1
  (⟨t.1, t.2.1, st.line, st.pos⟩, ⟨t.2.2, lp.1, lp.2, st.err⟩)

/-! ## The Val tree (class declared in tjson.h, used throughout tjson.cpp)

Modelled from the spec: `tjson.h` is not among the sources.  Per spec §3
and the accessor code in tjson.cpp (which reads `dict_`, `list_`, `val_`,
`is_dict_`, `is_list_`), a `Val` simultaneously carries an ordered
associative container of children keyed by strings, a sequence of
children, a raw text payload, and the two mode flags.  The spec leaves the
object iteration order "undefined-but-deterministic"; we model `dict_` as
a key-sorted associative list (`std::map` behaviour, matching the
byte-wise `std::string` order). -/

inductive Val where
  | mk (dict : List (List Char × Val)) (is_dict : Bool)
       (list : List Val) (is_list : Bool) (val : List Char)

def Val.dict : Val → List (List Char × Val)
  | .mk d _ _ _ _ => d

def Val.is_dict : Val → Bool
  | .mk _ b _ _ _ => b

def Val.list : Val → List Val
  | .mk _ _ l _ _ => l

def Val.is_list : Val → Bool
  | .mk _ _ _ b _ => b

def Val.val : Val → List Char
  | .mk _ _ _ _ v => v

/-- A default-constructed `Val`: empty containers, both flags clear, empty
text — also the value of the shared sentinel `Val::INVALID`
(tjson.cpp:12). -/
def Val.fresh : Val := .mk [] false [] false []

/-- `Val::INVALID` (tjson.cpp:12): a default-constructed `Val`. -/
def Val.INVALID : Val := Val.fresh

/-- Modelled from the spec: `set_dict` lives in tjson.h.  Spec §9 records
that in the source "switching modes does not clear the other variant's
storage", so `set_dict` only raises the object flag. -/
def Val.set_dict : Val → Val
  | .mk d _ l il v => .mk d true l il v

/-- Modelled from the spec: `set_list` lives in tjson.h; as with
`set_dict`, it only raises the array flag (spec §9). -/
def Val.set_list : Val → Val
  | .mk d id l _ v => .mk d id l true v

/-- `Val::reset` (tjson.cpp:368-378): clears both containers, both flags,
and the text. -/
def Val.reset : Val → Val
  | .mk _ _ _ _ _ => .mk [] false [] false []

/-- Byte-wise lexicographic order on keys: the `std::string` `operator<`
used by `std::map`. -/
def keyLt : List Char → List Char → Bool
  | [], [] => false
  | [], _ :: _ => true
  | _ :: _, [] => false
  | a :: as, b :: bs =>
    if a < b then true
    else if b < a then false
    else keyLt as bs

/-- Insert-or-assign into the key-sorted associative list: the effect of
`dict_[x] = ...` on a `std::map`. -/
def mapInsert (k : List Char) (v : Val) : List (List Char × Val) → List (List Char × Val)
  | [] => [(k, v)]
  | (k', v') :: r =>
    if keyLt k k' then (k, v) :: (k', v') :: r
    else if keyLt k' k then (k', v') :: mapInsert k v r
    else (k, v) :: r

/-- `dict_.find(x)` on the key-sorted associative list. -/
def mapFind (k : List Char) : List (List Char × Val) → Option Val
  | [] => none
  | (k', v') :: r => if k' = k then some v' else mapFind k r

/-- Read-only `Val::operator[](const std::string&) const`
(tjson.cpp:382-389): the `INVALID` sentinel on a miss, no mutation. -/
def Val.keyGet (v : Val) (k : List Char) : Val :=
  (mapFind k v.dict).getD Val.INVALID

/-- Read-only `Val::operator[](const size_t) const` (tjson.cpp:402-408):
the `INVALID` sentinel when the index is at or past the end. -/
def Val.idxGet (v : Val) (i : Nat) : Val :=
  v.list.getD i Val.INVALID

/-- Mutating `Val::operator[](const std::string&)` (tjson.cpp:391-398):
`set_dict()`, then the slot at `x` is re-pointed at a freshly
default-constructed `Val` (`val.reset(new Val)`), unconditionally. -/
def Val.keyTouch (v : Val) (k : List Char) : Val :=
  match v.set_dict with
  | .mk d id l il t => .mk (mapInsert k Val.fresh d) id l il t

/-- The parser's `cur[key_name] = std::move(v)` (tjson.cpp:233): the
mutating key accessor followed by assignment into the returned slot. -/
def Val.keySet (v : Val) (k : List Char) (c : Val) : Val :=
  match v.set_dict with
  | .mk d id l il t => .mk (mapInsert k c d) id l il t

/-- The `while (i >= list_.size()) push_back(new Val)` loop of the
mutating index accessor (tjson.cpp:414-416). -/
def listExtend (l : List Val) (i : Nat) : List Val :=
  l ++ List.replicate (i + 1 - l.length) Val.fresh

/-- Mutating `Val::operator[](const size_t)` (tjson.cpp:410-418):
`set_list()`, extend with default-constructed nodes up to `i`; the
existing element at `i` (if any) is kept. -/
def Val.idxTouch (v : Val) (i : Nat) : Val :=
  match v.set_list with
  | .mk d id l il t => .mk d id (listExtend l i) il t

/-- The parser's `cur[i] = std::move(v)` (tjson.cpp:260): mutating index
access followed by assignment into the returned slot. -/
def Val.idxSet (v : Val) (i : Nat) (c : Val) : Val :=
  match v.set_list with
  | .mk d id l il t => .mk d id ((listExtend l i).set i c) il t

/-! ## Writer (tjson.cpp:281-331) -/

def threeSp : List Char := [' ', ' ', ' ']

mutual

/-- `write` (tjson.cpp:281-331): objects first, then arrays, else the raw
scalar text verbatim. -/
def write : Val → List Char → List Char
  | Val.mk d idict l ilist v, indent =>
    if idict then
      if d.isEmpty then ['{', '}']
      else '{' :: (writeDictEntries d (indent ++ threeSp) false ++ '\n' :: (indent ++ ['}']))
    else if ilist then
      if l.isEmpty then ['[', ']']
      else '[' :: (writeListEntries l (indent ++ threeSp) false ++ '\n' :: (indent ++ [']']))
    else v

/-- The entry loop of the object case, with the `needsComma` flag. -/
def writeDictEntries : List (List Char × Val) → List Char → Bool → List Char
  | [], _, _ => []
  | (k, c) :: r, ip, needsComma =>
    (if needsComma then [','] else []) ++
      ('\n' :: (ip ++ escape k ++ ':' :: ' ' :: write c ip)) ++
      writeDictEntries r ip true

/-- The entry loop of the array case. -/
def writeListEntries : List Val → List Char → Bool → List Char
  | [], _, _ => []
  | c :: r, ip, needsComma =>
    (if needsComma then [','] else []) ++
      ('\n' :: (ip ++ write c ip)) ++
      writeListEntries r ip true

end

/-! ## Parser (tjson.cpp:159-279) -/

/-- The `while (true)` loop of `TokenGen::NextNonWS` (tjson.cpp:141-154),
with an explicit recursion budget; every whitespace token consumes at
least one character, so a budget exceeding the remaining length is never
exhausted (`nextNonWSAux_irrel`). -/
def nextNonWSAux : Nat → PSt → Tok × PSt
  | 0, st => next st
  | f + 1, st =>
    if (next st).1.ty = TokTy.whitespace then nextNonWSAux f (next st).2
    else next st

/-- `TokenGen::NextNonWS` (tjson.cpp:141-154): skip whitespace tokens. -/
def nextNonWS (st : PSt) : Tok × PSt := nextNonWSAux (st.rem.length + 1) st

/-! ## Error construction (tjson.cpp:172-201) -/

/-- Decimal digits of a number, as `operator<<` renders it. -/
def natChars (n : Nat) : List Char := Nat.toDigits 10 n

/-- The `str.resize(20)` truncation in `fn_err` (tjson.cpp:174-176). -/
def trunc20 (s : List Char) : List Char :=
  if s.length > 20 then s.take 20 else s

/-- The message format built by `fn_err` (tjson.cpp:178-181):
`Error: L<line>:<pos>: Expected <expected>, got: "<truncated text>".` -/
def errMsg (line pos : Nat) (expected got : List Char) : List Char :=
  ("Error: L".toList) ++ natChars line ++ [':'] ++ natChars pos ++
    (": Expected ".toList) ++ expected ++ (", got: \"".toList) ++ got ++
    ("\".".toList)

/-- `fn_err` (tjson.cpp:172-182): formats and stores the message for the
offending token. -/
def fnErr (tok : Tok) (expected : List Char) : List Char :=
  errMsg tok.line tok.pos expected (trunc20 tok.txt)

/-- Replace the stored `*out_err`. -/
def PSt.withErr (st : PSt) (e : List Char) : PSt :=
  ⟨st.rem, st.line, st.pos, e⟩

/-! ## The recursive `read` (tjson.cpp:168-279)

`read` is one recursive procedure with two interior `while (true)` loops;
we model the loops as the mutually recursive `readDict`/`readList`, on an
explicit recursion budget (`none` = budget exhausted; `readFuel` shows the
budget used by the top-level entry points always suffices).  The result
`some (none, st)` models `return nullptr` with `*out_err` set in `st`;
`some (some v, st)` models returning a tree. -/

/-- The token-text comparisons `tok == "{"` etc. (tjson.cpp:81-86). -/
def lbrace : List Char := ['{']

def rbrace : List Char := ['}']

def lbrack : List Char := ['[']

def rbrack : List Char := [']']

mutual

def read : Nat → PSt → Option (Option Val × PSt)
  | 0, _ => none
  | f + 1, st =>
    let t := nextNonWS st
    let tok := t.1
    let st1 := t.2
    if tok.txt = lbrace then
      let p := nextNonWS st1
      if p.1.txt = rbrace then some (some (Val.fresh.set_dict), p.2)
      else readDict f (Val.fresh.set_dict) st1
    else if tok.txt = lbrack then
      let p := nextNonWS st1
      if p.1.txt = rbrack then some (some (Val.fresh.set_list), p.2)
      else readList f (Val.fresh.set_list) 0 st1
    else if tok.ty = TokTy.malformed then
      some (none, st1.withErr (fnErr tok ("!MALFORMED".toList)))
    else
      some (some (Val.mk [] false [] false tok.txt), st1)

def readDict : Nat → Val → PSt → Option (Option Val × PSt)
  | 0, _, _ => none
  | f + 1, cur, st =>
    let tk := nextNonWS st
    let k := tk.1
    let st1 := tk.2
    if k.ty ≠ TokTy.string then
      some (none, st1.withErr (fnErr k ("STRING".toList)))
    else
      let tc := nextNonWS st1
      let colon := tc.1
      let st2 := tc.2
      if colon.txt = [':'] then
        match read f st2 with
        | none => none
        | some (none, st3) => some (none, st3)
        | some (some v, st3) =>
          let key := (unescape k.txt).getD []
          let cur2 := cur.keySet key v
          let tm := nextNonWS st3
          let comma := tm.1
          let st4 := tm.2
          if comma.txt = rbrace then some (some cur2, st4)
          else if comma.txt = [','] then readDict f cur2 st4
          else some (none, st4.withErr (fnErr comma ("\",\"".toList)))
      else
        some (none, st2.withErr (fnErr colon ("\":\"".toList)))

def readList : Nat → Val → Nat → PSt → Option (Option Val × PSt)
  | 0, _, _, _ => none
  | f + 1, cur, i, st =>
    match read f st with
    | none => none
    | some (none, st1) => some (none, st1)
    | some (some v, st1) =>
      let cur2 := cur.idxSet i v
      let tm := nextNonWS st1
      let comma := tm.1
      let st2 := tm.2
      if comma.txt = rbrack then some (some cur2, st2)
      else if comma.txt = [','] then readList f cur2 (i + 1) st2
      else some (none, st2.withErr (fnErr comma ("\",\"".toList)))

end

/-- The initial tokenizer/parser state for an input range
(tjson.cpp:114-116, 163): cursor at the start, line 1, column 1, and a
caller-supplied empty error string. -/
def read0 (s : List Char) : PSt := ⟨s, 1, 1, []⟩

/-- The top-level two-argument `read` (tjson.cpp:159-166) on a budget that
always suffices (see `readFuel`). -/
def readFull (s : List Char) : Option (Option Val × PSt) :=
  read (2 * s.length + 1) (read0 s)

/-! ## Numeric coercion (tjson.cpp:335-351)

`Val::as_number` extracts a `double` from an `istringstream` imbued with
the classic ("C") locale.  We model the extraction by the locale-free
decimal grammar of `strtod` (optional stream whitespace, optional sign,
digits with an optional fraction part, an optional exponent), which is the
classic-locale behaviour on decimal inputs; the `double` value is modelled
as an exact rational.  The extraction succeeds on a numeric prefix even
when unconsumed characters remain, and fails only when no numeric prefix
exists (`stream.fail()`). -/

/-- Stream whitespace (classic locale `isspace`). -/
def isSpaceC (c : Char) : Bool :=
  c = ' ' || c = '\t' || c = '\n' || c = '\x0b' || c = '\x0c' || c = '\r'

/-- Consume leading decimal digits: value, number of digits, rest. -/
def parseDigits : List Char → Nat → Nat → Nat × Nat × List Char
  | [], acc, n => (acc, n, [])
  | c :: r, acc, n =>
    if '0' ≤ c && c ≤ '9' then parseDigits r (acc * 10 + (c.toNat - 48)) (n + 1)
    else (acc, n, c :: r)

/-- The exponent part: consumed only when at least one digit follows the
optional sign (otherwise `strtod` stops before the `e`). -/
def parseExp (s : List Char) : Option ℤ :=
  match s with
  | c :: r =>
    if c = 'e' || c = 'E' then
      match r with
      | '+' :: r2 =>
        (match parseDigits r2 0 0 with
         | (ev, ne, _) => if ne = 0 then none else some (ev : ℤ))
      | '-' :: r2 =>
        (match parseDigits r2 0 0 with
         | (ev, ne, _) => if ne = 0 then none else some (-(ev : ℤ)))
      | r2 =>
        (match parseDigits r2 0 0 with
         | (ev, ne, _) => if ne = 0 then none else some (ev : ℤ))
    else none
  | [] => none

/-- `stream >> ret` on the scalar text (tjson.cpp:338-347), as an exact
(numerator, denominator) pair; `none` models `stream.fail()`. -/
def numParse (s : List Char) : Option (ℤ × ℕ) :=
  let s1 := s.dropWhile isSpaceC
  let sgn : ℤ × List Char :=
    match s1 with
    | '+' :: r => (1, r)
    | '-' :: r => (-1, r)
    | r => (1, r)
  match parseDigits sgn.2 0 0 with
  | (ip, ni, s3) =>
    let fpp : Nat × Nat × List Char :=
      match s3 with
      | '.' :: r => parseDigits r 0 0
      | r => (0, 0, r)
    match fpp with
    | (fp, nf, s4) =>
      if ni + nf = 0 then none
      else
        let num : ℤ := sgn.1 * (ip * 10 ^ nf + fp)
        let den : ℕ := 10 ^ nf
        match parseExp s4 with
        | some ex =>
          if 0 ≤ ex then some (num * 10 ^ ex.toNat, den)
          else some (num, den * 10 ^ (-ex).toNat)
        | none => some (num, den)

/-- `Val::as_number` (tjson.cpp:335-351): `none` models returning `false`,
and the extracted `double` is modelled as the exact rational value. -/
def Val.as_number (v : Val) : Option ℚ :=
  (numParse v.val).map (fun p => (p.1 : ℚ) / (p.2 : ℚ))

/-- A scalar node as the parser builds it (`cur.val() = tok.str()`). -/
def mkScalar (s : List Char) : Val := Val.mk [] false [] false s

/-! ## Specification-side escape-pair relation (for §4.1)

`UnescRel body out` holds when `out` is `body` with exactly one backslash
removed before each escaped character, the character after each backslash
taken literally — the specification's description of `unescape`'s output
on the text between the outer quotes. -/

inductive UnescRel : List Char → List Char → Prop where
  | nil : UnescRel [] []
  | lit {c : Char} {b o : List Char} :
      c ≠ '\\' → UnescRel b o → UnescRel (c :: b) (c :: o)
  | esc {c : Char} {b o : List Char} :
      UnescRel b o → UnescRel ('\\' :: c :: b) (c :: o)

/-! ## Well-formed trees and the parsed normal form (for §8 round-trip)

`goodTok` accepts exactly the scalar payloads that are a single WORD or
STRING token; `goodVal` additionally requires object entries to be in
`std::map` order (as any tree built through the accessors is), checking
only the variant that `write` serializes.  `clean` is the tree the parser
rebuilds from written text: the same shape with the inactive variants
empty.  `cost` is a recursion budget sufficient for `read` to consume the
written text. -/

/-- The payload is one complete WORD or STRING token. -/
def goodTok (s : List Char) : Bool :=
  (!s.isEmpty && s.all isWordChar) ||
    (match strMatch s with
     | some p => p.2.isEmpty
     | none => false)

/-- Keys strictly ascending in `keyLt`: the `std::map` invariant. -/
def sortedKeys : List (List Char × Val) → Bool
  | [] => true
  | [_] => true
  | (k1, _) :: (k2, v2) :: r =>
    keyLt k1 k2 && sortedKeys ((k2, v2) :: r)

mutual

def goodVal : Val → Bool
  | Val.mk d idict l ilist v =>
    if idict then sortedKeys d && goodEntries d
    else if ilist then goodSeq l
    else goodTok v

def goodEntries : List (List Char × Val) → Bool
  | [] => true
  | (_, c) :: r => goodVal c && goodEntries r

def goodSeq : List Val → Bool
  | [] => true
  | c :: r => goodVal c && goodSeq r

end

mutual

def clean : Val → Val
  | Val.mk d idict l ilist v =>
    if idict then Val.mk (cleanEntries d) true [] false []
    else if ilist then Val.mk [] false (cleanSeq l) true []
    else Val.mk [] false [] false v

def cleanEntries : List (List Char × Val) → List (List Char × Val)
  | [] => []
  | (k, c) :: r => (k, clean c) :: cleanEntries r

def cleanSeq : List Val → List Val
  | [] => []
  | c :: r => clean c :: cleanSeq r

end

mutual

def cost : Val → Nat
  | Val.mk d idict l ilist _ =>
    if idict then 2 + costEntries d
    else if ilist then 2 + costSeq l
    else 1

def costEntries : List (List Char × Val) → Nat
  | [] => 0
  | (_, c) :: r => 2 + cost c + costEntries r

def costSeq : List Val → Nat
  | [] => 0
  | c :: r => 2 + cost c + costSeq r

end

/-- The accumulated effect of the object loop: `cur[key] = value` for each
written entry in order, with parsed children in `clean` form. -/
def foldKS : Val → List (List Char × Val) → Val
  | cur, [] => cur
  | cur, (k, c) :: r => foldKS (cur.keySet k (clean c)) r

/-- The accumulated effect of the array loop: `cur[i] = value` at
successive indices. -/
def foldLS : Val → Nat → List Val → Val
  | cur, _, [] => cur
  | cur, i, c :: r => foldLS (cur.idxSet i (clean c)) (i + 1) r

/-! ## Basic tokenizer lemmas -/

theorem strScanAux_append :
    ∀ s b t r, strScanAux s b = some (t, r) → t ++ r = s := by
  intro s
  induction s with
  | nil => intro b t r h; cases h
  | cons c cs ih =>
    intro b t r h
    rw [strScanAux] at h
    by_cases hesc : b = true
    · subst hesc
      rw [if_pos rfl] at h
      by_cases hnl : (c = '\n' || c = '\r') = true
      · rw [if_pos hnl] at h; cases h
      · rw [if_neg hnl, Option.map_eq_some'] at h
        obtain ⟨p, hp, hpe⟩ := h
        have := ih false p.1 p.2 (by simpa using hp)
        cases hpe
        simp [← this]
    · rw [if_neg hesc] at h
      by_cases hq : c = '"'
      · rw [if_pos hq] at h
        cases h
        simp [hq]
      · rw [if_neg hq] at h
        by_cases hbs : c = '\\'
        · rw [if_pos hbs, Option.map_eq_some'] at h
          obtain ⟨p, hp, hpe⟩ := h
          have := ih true p.1 p.2 (by simpa using hp)
          cases hpe
          simp [← this]
        · rw [if_neg hbs, Option.map_eq_some'] at h
          obtain ⟨p, hp, hpe⟩ := h
          have := ih false p.1 p.2 (by simpa using hp)
          cases hpe
          simp [← this]

theorem strMatch_append {s t r : List Char} (h : strMatch s = some (t, r)) :
    t ++ r = s := by
  cases s with
  | nil => cases h
  | cons c cs =>
    rw [strMatch] at h
    by_cases hq : c = '"'
    · rw [if_pos hq, Option.map_eq_some'] at h
      obtain ⟨p, hp, hpe⟩ := h
      have := strScanAux_append cs false p.1 p.2 (by simpa using hp)
      cases hpe
      simp [← this, hq]
    · rw [if_neg hq] at h; cases h

theorem tokenAt_append (s : List Char) :
    (tokenAt s).2.1 ++ (tokenAt s).2.2 = s := by
  simp only [tokenAt]
  by_cases hw : s.takeWhile isWS = []
  · simp only [hw, ne_eq, not_true_eq_false, if_false]
    cases hm : strMatch s with
    | some p =>
      exact strMatch_append (s := s) (t := p.1) (r := p.2) (by simpa using hm)
    | none =>
      simp only []
      by_cases hw2 : s.takeWhile isWordChar = []
      · simp only [hw2, ne_eq, not_true_eq_false, if_false]
        cases s with
        | nil => rfl
        | cons c r =>
          by_cases hc : isSym c
          · simp [hc]
          · simp [hc]
      · simp only [ne_eq, hw2, not_false_eq_true, if_true]
        exact List.takeWhile_append_dropWhile _ _
  · simp only [ne_eq, hw, not_false_eq_true, if_true]
    exact List.takeWhile_append_dropWhile _ _

theorem tokenAt_ws_lt (s : List Char) (h : (tokenAt s).1 = TokTy.whitespace) :
    (tokenAt s).2.2.length < s.length := by
  by_cases hw : s.takeWhile isWS = []
  · exfalso
    simp only [tokenAt, hw, ne_eq, not_true_eq_false, if_false] at h
    cases hm : strMatch s with
    | some p => rw [hm] at h; cases h
    | none =>
      rw [hm] at h
      by_cases hw2 : s.takeWhile isWordChar = []
      · simp only [hw2, ne_eq, not_true_eq_false, if_false] at h
        cases s with
        | nil => cases h
        | cons c r => by_cases hc : isSym c <;> simp [hc] at h
      · simp only [ne_eq, hw2, not_false_eq_true, if_true] at h
        cases h
  · have key : s.takeWhile isWS ++ s.dropWhile isWS = s :=
      List.takeWhile_append_dropWhile _ _
    have hlen := congrArg List.length key
    rw [List.length_append] at hlen
    have hpos : 0 < (s.takeWhile isWS).length := List.length_pos.mpr hw
    have hres : (tokenAt s).2.2 = s.dropWhile isWS := by
      simp only [tokenAt, ne_eq, hw, not_false_eq_true, if_true]
    rw [hres]
    omega

theorem next_rem_ws (st : PSt) (h : (next st).1.ty = TokTy.whitespace) :
    (next st).2.rem.length < st.rem.length :=
  tokenAt_ws_lt st.rem h

theorem nextNonWSAux_irrel :
    ∀ f1 f2 st, st.rem.length < f1 → st.rem.length < f2 →
      nextNonWSAux f1 st = nextNonWSAux f2 st := by
  intro f1
  induction f1 with
  | zero => intro f2 st h1; omega
  | succ a ih =>
    intro f2 st h1 h2
    cases f2 with
    | zero => omega
    | succ b =>
      rw [nextNonWSAux, nextNonWSAux]
      by_cases hws : ((next st).1.ty = TokTy.whitespace)
      · rw [if_pos hws, if_pos hws]
        have hlt := next_rem_ws st hws
        exact ih b (next st).2 (by omega) (by omega)
      · rw [if_neg hws, if_neg hws]

/-! ## Map helper lemmas -/

theorem keyLt_irrefl : ∀ k, keyLt k k = false
  | [] => rfl
  | a :: as => by
    rw [keyLt, if_neg (lt_irrefl a), if_neg (lt_irrefl a)]
    exact keyLt_irrefl as

theorem mapFind_mapInsert_self :
    ∀ (d : List (List Char × Val)) (k : List Char) (c : Val),
      mapFind k (mapInsert k c d) = some c := by
  intro d
  induction d with
  | nil => intro k c; simp [mapInsert, mapFind]
  | cons e r ih =>
    intro k c
    obtain ⟨k', v'⟩ := e
    rw [mapInsert]
    by_cases h1 : keyLt k k' = true
    · rw [if_pos h1, mapFind, if_pos rfl]
    · rw [if_neg h1]
      by_cases h2 : keyLt k' k = true
      · rw [if_pos h2, mapFind]
        have hne : k' ≠ k := by
          intro he
          rw [he, keyLt_irrefl] at h2
          cases h2
        rw [if_neg hne]
        exact ih k c
      · rw [if_neg h2, mapFind, if_pos rfl]

/-! ## Claim C2 (code_bug): mode switches do not clear the other variant -/

/-- Claim C2: the spec's invariant demands that switching a `Val` into
Object mode clears prior Array content; the modelled source keeps it.
Starting from a default node, a mutating index access (`v[0] = scalar x`)
followed by a mutating key access (`v["k"] = scalar y`) leaves a node
that simultaneously holds an object entry and an array element, with both
mode flags raised. -/
theorem c2_mode_switch_keeps_other_variant :
    ((Val.fresh.idxSet 0 (mkScalar ['x'])).keySet ['k'] (mkScalar ['y'])).dict
        = [(['k'], mkScalar ['y'])] ∧
    ((Val.fresh.idxSet 0 (mkScalar ['x'])).keySet ['k'] (mkScalar ['y'])).list
        = [mkScalar ['x']] ∧
    ((Val.fresh.idxSet 0 (mkScalar ['x'])).keySet ['k'] (mkScalar ['y'])).is_dict
        = true ∧
    ((Val.fresh.idxSet 0 (mkScalar ['x'])).keySet ['k'] (mkScalar ['y'])).is_list
        = true :=
  ⟨rfl, rfl, rfl, rfl⟩

/-! ## Claim C5: the mutating key accessor installs a fresh node -/

/-- Claim C5: for every node and key, the mutating key accessor
`operator[](const std::string&)` switches the node into Object mode and
re-points the slot at `k` at a freshly default-constructed node,
regardless of what was stored there before (the prior child is
discarded). -/
theorem c5_key_access_installs_fresh (v : Val) (k : List Char) :
    (v.keyTouch k).dict = mapInsert k Val.fresh v.dict ∧
    mapFind k (v.keyTouch k).dict = some Val.fresh ∧
    (v.keyTouch k).is_dict = true := by
  obtain ⟨d, id, l, il, t⟩ := v
  refine ⟨rfl, ?_, rfl⟩
  exact mapFind_mapInsert_self d k Val.fresh

/-! ## Claim C6: duplicate keys, last occurrence wins -/

/-- Claim C6: parsing an object with a repeated key succeeds with no
error, and the resulting object holds exactly one entry for that key,
bound to the value of the last occurrence. -/
theorem c6_duplicate_keys_last_wins :
    readFull ("\x7b\"a\": 1, \"a\": 2\x7d".toList) =
      some (some (Val.mk [(['a'], mkScalar ['2'])] true [] false []),
        ⟨[], 1, 17, []⟩) := rfl

/-! ## Claim C7: read-only lookups return the INVALID sentinel -/

/-- Claim C7: the read-only accessors are pure functions of the node (so
the node is unchanged by construction); a key miss or an index at or past
the array length returns the `INVALID` sentinel, which is an empty scalar
with both mode flags clear. -/
theorem c7_const_miss_returns_invalid (v : Val) (k : List Char) (i : Nat)
    (hk : mapFind k v.dict = none) (hi : v.list.length ≤ i) :
    v.keyGet k = Val.INVALID ∧ v.idxGet i = Val.INVALID ∧
    Val.INVALID.is_dict = false ∧ Val.INVALID.is_list = false ∧
    Val.INVALID.val = [] ∧ Val.INVALID.dict = [] ∧ Val.INVALID.list = [] := by
  refine ⟨?_, ?_, rfl, rfl, rfl, rfl, rfl⟩
  · rw [Val.keyGet, hk]; rfl
  · rw [Val.idxGet, List.getD_eq_default _ _ hi]

/-- Witness for C7 at a concrete node: a one-element array misses both the
key `"a"` and the index 1. -/
theorem c7_const_miss_returns_invalid_witness :
    (Val.fresh.idxSet 0 (mkScalar ['x'])).keyGet ['a'] = Val.INVALID ∧
    (Val.fresh.idxSet 0 (mkScalar ['x'])).idxGet 1 = Val.INVALID ∧
    Val.INVALID.is_dict = false ∧ Val.INVALID.is_list = false ∧
    Val.INVALID.val = [] ∧ Val.INVALID.dict = [] ∧ Val.INVALID.list = [] :=
  c7_const_miss_returns_invalid (Val.fresh.idxSet 0 (mkScalar ['x']))
    ['a'] 1 rfl (by simp [Val.fresh, Val.idxSet, Val.set_list, listExtend, Val.list])

/-! ## Claim C9: as_number -/

/-- Claim C9: `as_number` (modelled with exact rationals over the
locale-independent decimal grammar) parses `"3.14"` to 3.14, accepts the
numeric prefix of `"12abc"` as 12, and fails on `"abc"`. -/
theorem c9_as_number_examples :
    (mkScalar ("3.14".toList)).as_number = some ((3.14 : ℚ)) ∧
    (mkScalar ("12abc".toList)).as_number = some ((12 : ℚ)) ∧
    (mkScalar ("abc".toList)).as_number = none := by
  refine ⟨?_, ?_, ?_⟩
  · rw [Val.as_number,
      show numParse (mkScalar ("3.14".toList)).val = some (314, 100) from rfl]
    simp only [Option.map_some']
    norm_num
  · rw [Val.as_number,
      show numParse (mkScalar ("12abc".toList)).val = some (12, 1) from rfl]
    simp only [Option.map_some']
    norm_num
  · rw [Val.as_number,
      show numParse (mkScalar ("abc".toList)).val = none from rfl]
    rfl

/-! ## Claim C8: unescape -/

theorem unescLoop_false_of_rel {b o : List Char} (h : UnescRel b o) :
    unescLoop b false = some o := by
  induction h with
  | nil => rfl
  | lit hc _ ih =>
    rw [unescLoop]
    rw [if_neg (by simpa using hc), ih]
    rfl
  | esc _ ih =>
    rw [unescLoop, if_pos (by simp), unescLoop, if_neg (by simp), ih]
    rfl

theorem rel_of_unescLoop_false :
    ∀ n b, b.length ≤ n → ∀ o, unescLoop b false = some o → UnescRel b o := by
  intro n
  induction n with
  | zero =>
    intro b hb o h
    have : b = [] := List.eq_nil_of_length_eq_zero (Nat.le_zero.mp hb)
    subst this
    cases h
    exact UnescRel.nil
  | succ m ih =>
    intro b hb o h
    cases b with
    | nil => cases h; exact UnescRel.nil
    | cons c r =>
      by_cases hc : c = '\\'
      · subst hc
        rw [unescLoop, if_pos (by simp)] at h
        cases r with
        | nil =>
          rw [unescLoop, if_pos rfl] at h
          cases h
        | cons c2 r2 =>
          rw [unescLoop, if_neg (by simp)] at h
          rw [Option.map_eq_some'] at h
          obtain ⟨o2, ho2, rfl⟩ := h
          have hlen : r2.length ≤ m := by
            simp only [List.length_cons] at hb
            omega
          exact UnescRel.esc (ih r2 hlen o2 ho2)
      · rw [unescLoop, if_neg (by simpa using hc), Option.map_eq_some'] at h
        obtain ⟨o2, ho2, rfl⟩ := h
        have hlen : r.length ≤ m := by
          simp only [List.length_cons] at hb
          omega
        exact UnescRel.lit hc (ih r hlen o2 ho2)

/-- Claim C8: `unescape` succeeds exactly on inputs of the form
`'"' :: body ++ ['"']` whose body admits an escape-pair parse (so inputs
shorter than two characters, inputs not bracketed by quotes, and bodies
ending mid-escape all fail), and on success the output is the body with
one backslash removed before each escaped character, that character taken
literally. -/
theorem c8_unescape_characterization (s o : List Char) :
    unescape s = some o ↔
      ∃ body, s = '"' :: (body ++ ['"']) ∧ UnescRel body o := by
  constructor
  · intro h
    rw [unescape] at h
    by_cases h2 : s.length < 2
    · rw [if_pos h2] at h; cases h
    · rw [if_neg h2] at h
      by_cases hq : (s.head? = some '"' && s.getLast? = some '"') = true
      · rw [if_neg (by simp [hq])] at h
        cases s with
        | nil => simp at h2
        | cons c t =>
          simp only [List.head?_cons, Bool.and_eq_true, decide_eq_true_eq] at hq
          obtain ⟨hq1, hq2⟩ := hq
          cases hq1
          have ht : t ≠ [] := by
            intro he
            subst he
            simp at h2
          have hsplit : t.dropLast ++ [t.getLast ht] = t :=
            List.dropLast_append_getLast ht
          have hlast : t.getLast ht = '"' := by
            have h3 : ('"' :: t).getLast (by simp) = '"' := by
              have := List.getLast?_eq_getLast ('"' :: t) (by simp)
              rw [hq2] at this
              exact (Option.some_inj.mp this).symm
            rw [List.getLast_cons ht] at h3
            exact h3
          refine ⟨t.dropLast, ?_, ?_⟩
          · rw [← hlast, hsplit]
          · simp only [List.drop_one, List.tail_cons] at h
            exact rel_of_unescLoop_false t.dropLast.length t.dropLast le_rfl o h
      · rw [if_pos (by rw [eq_false_of_ne_true hq]; rfl)] at h
        cases h
  · rintro ⟨body, rfl, hrel⟩
    rw [unescape]
    rw [if_neg (by simp)]
    rw [if_neg (by
      have hl : ('"' :: (body ++ ['"'])).getLast? = some '"' := by
        rw [← List.cons_append]
        exact List.getLast?_concat _
      simp [hl])]
    simp only [List.drop_one, List.tail_cons, List.dropLast_concat]
    exact unescLoop_false_of_rel hrel

/-! ## Claim C3: which atoms the parser accepts -/

/-- Counterexample to claim C3 as stated: on the input `:` — whose first
non-whitespace token is the Symbol `:`, neither `{` nor `[` — `read`
does not fail; it succeeds and returns the Scalar `:`. -/
theorem c3_counterexample :
    readFull [':'] = some (some (mkScalar [':']), ⟨[], 1, 2, []⟩) ∧
    ¬ ∃ st, readFull [':'] = some (none, st) := by
  refine ⟨rfl, ?_⟩
  rintro ⟨st, h⟩
  rw [show readFull [':'] = some (some (mkScalar [':']), ⟨[], 1, 2, []⟩)
    from rfl] at h
  simp at h

/-- Claim C3 as amended: when the next non-whitespace token is neither
`{` nor `[`, `read` fails — with the "expected !MALFORMED" error — exactly
when that token is Malformed; every other token (STRING, WORD, or any
Symbol, `:`/`,`/closing brackets included) succeeds and becomes a Scalar
holding the token text. -/
theorem c3_amended_atom_acceptance (f : Nat) (st : PSt) (tok : Tok)
    (st1 : PSt) (h : nextNonWS st = (tok, st1))
    (hb : tok.txt ≠ lbrace) (hk : tok.txt ≠ lbrack) :
    read (f + 1) st =
      if tok.ty = TokTy.malformed
      then some (none, st1.withErr (fnErr tok ("!MALFORMED".toList)))
      else some (some (mkScalar tok.txt), st1) := by
  rw [read, h]
  rw [if_neg hb, if_neg hk]
  by_cases hm : tok.ty = TokTy.malformed
  · rw [if_pos hm, if_pos hm]
  · rw [if_neg hm, if_neg hm]
    rfl

/-- Witness for the amended C3 at the concrete input `:`. -/
theorem c3_amended_atom_acceptance_witness :
    read 1 (read0 [':']) = some (some (mkScalar [':']), ⟨[], 1, 2, []⟩) := by
  have h := c3_amended_atom_acceptance 0 (read0 [':'])
    ⟨TokTy.symbol, [':'], 1, 1⟩ ⟨[], 1, 2, []⟩ rfl (by decide) (by decide)
  rw [if_neg (by decide)] at h
  exact h

/-! ## Tokenizer-state lemmas -/

theorem next_fst_ty (st : PSt) : (next st).1.ty = (tokenAt st.rem).1 := rfl

theorem next_fst_txt (st : PSt) : (next st).1.txt = (tokenAt st.rem).2.1 := rfl

theorem next_snd_rem (st : PSt) : (next st).2.rem = (tokenAt st.rem).2.2 := rfl

theorem next_snd_err (st : PSt) : (next st).2.err = st.err := rfl

theorem strScanAux_ne_nil {s : List Char} {b : Bool} {t r : List Char}
    (h : strScanAux s b = some (t, r)) : t ≠ [] := by
  cases s with
  | nil => cases h
  | cons c cs =>
    rw [strScanAux] at h
    by_cases hesc : b = true
    · rw [if_pos hesc] at h
      by_cases hnl : (c = '\n' || c = '\r') = true
      · rw [if_pos hnl] at h; cases h
      · rw [if_neg hnl, Option.map_eq_some'] at h
        obtain ⟨p, _, hpe⟩ := h
        cases hpe
        simp
    · rw [if_neg hesc] at h
      by_cases hq : c = '"'
      · rw [if_pos hq] at h; cases h; simp
      · rw [if_neg hq] at h
        by_cases hbs : c = '\\' <;>
          [rw [if_pos hbs, Option.map_eq_some'] at h;
           rw [if_neg hbs, Option.map_eq_some'] at h] <;>
          (obtain ⟨p, _, hpe⟩ := h; cases hpe; simp)

theorem tokenAt_string_len (s : List Char)
    (h : (tokenAt s).1 = TokTy.string) : 2 ≤ (tokenAt s).2.1.length := by
  by_cases hw : s.takeWhile isWS = []
  · cases hm : strMatch s with
    | some p =>
      have htxt : (tokenAt s).2.1 = p.1 := by
        simp only [tokenAt, hw, ne_eq, not_true_eq_false, if_false, hm]
      rw [htxt]
      cases s with
      | nil => cases hm
      | cons c cs =>
        rw [strMatch] at hm
        by_cases hq : c = '"'
        · rw [if_pos hq, Option.map_eq_some'] at hm
          obtain ⟨q, hq1, hq2⟩ := hm
          have hne := strScanAux_ne_nil (s := cs) (b := false)
            (t := q.1) (r := q.2) (by simpa using hq1)
          cases hq2
          simp only [List.length_cons]
          have : 0 < q.1.length := List.length_pos.mpr hne
          omega
        · rw [if_neg hq] at hm; cases hm
    | none =>
      exfalso
      simp only [tokenAt, hw, ne_eq, not_true_eq_false, if_false, hm] at h
      by_cases hw2 : s.takeWhile isWordChar = []
      · simp only [hw2, ne_eq, not_true_eq_false, if_false] at h
        cases s with
        | nil => cases h
        | cons c r => by_cases hc : isSym c <;> simp [hc] at h
      · simp only [ne_eq, hw2, not_false_eq_true, if_true] at h
        cases h
  · exfalso
    simp only [tokenAt, ne_eq, hw, not_false_eq_true, if_true] at h
    cases h

theorem tokenAt_malformed_txt (s : List Char)
    (h : (tokenAt s).1 = TokTy.malformed) : (tokenAt s).2.1 = [] := by
  by_cases hw : s.takeWhile isWS = []
  · cases hm : strMatch s with
    | some p =>
      exfalso
      simp only [tokenAt, hw, ne_eq, not_true_eq_false, if_false, hm] at h
      cases h
    | none =>
      by_cases hw2 : s.takeWhile isWordChar = []
      · simp only [tokenAt, hw, ne_eq, not_true_eq_false, if_false, hm, hw2]
        cases s with
        | nil => rfl
        | cons c r =>
          by_cases hc : isSym c
          · exfalso
            simp only [tokenAt, hw, ne_eq, not_true_eq_false, if_false, hm,
              hw2] at h
            simp [hc] at h
          · simp [hc]
      · exfalso
        simp only [tokenAt, hw, ne_eq, not_true_eq_false, if_false, hm, ne_eq,
          hw2, not_false_eq_true, if_true] at h
        cases h
  · exfalso
    simp only [tokenAt, ne_eq, hw, not_false_eq_true, if_true] at h
    cases h

theorem nextNonWSAux_eq_next :
    ∀ f st, ∃ stm : PSt, nextNonWSAux f st = next stm ∧
      stm.rem <:+ st.rem ∧ stm.err = st.err := by
  intro f
  induction f with
  | zero => intro st; exact ⟨st, rfl, List.suffix_refl _, rfl⟩
  | succ m ih =>
    intro st
    rw [nextNonWSAux]
    by_cases hws : ((next st).1.ty = TokTy.whitespace)
    · rw [if_pos hws]
      obtain ⟨stm, h1, h2, h3⟩ := ih (next st).2
      refine ⟨stm, h1, ?_, ?_⟩
      · refine h2.trans ?_
        rw [next_snd_rem]
        exact ⟨(tokenAt st.rem).2.1, tokenAt_append st.rem⟩
      · rw [h3, next_snd_err]
    · rw [if_neg hws]
      exact ⟨st, rfl, List.suffix_refl _, rfl⟩

theorem nextNonWS_eq_next (st : PSt) :
    ∃ stm : PSt, nextNonWS st = next stm ∧
      stm.rem <:+ st.rem ∧ stm.err = st.err :=
  nextNonWSAux_eq_next _ st

theorem nextNonWS_snd_err (st : PSt) : (nextNonWS st).2.err = st.err := by
  obtain ⟨stm, h1, _, h3⟩ := nextNonWS_eq_next st
  rw [h1, next_snd_err, h3]

theorem nextNonWS_append_txt (st : PSt) :
    ∃ pre : List Char, pre ++ (nextNonWS st).1.txt ++ (nextNonWS st).2.rem
      = st.rem := by
  obtain ⟨stm, h1, ⟨pre, h2⟩, _⟩ := nextNonWS_eq_next st
  refine ⟨pre, ?_⟩
  rw [h1, next_fst_txt, next_snd_rem, List.append_assoc,
    tokenAt_append stm.rem, h2]

theorem nextNonWS_rem_suffix (st : PSt) : (nextNonWS st).2.rem <:+ st.rem := by
  obtain ⟨pre, h⟩ := nextNonWS_append_txt st
  exact ⟨pre ++ (nextNonWS st).1.txt, by rw [← h, List.append_assoc]⟩

theorem nextNonWS_consume (st : PSt) :
    (nextNonWS st).2.rem.length + (nextNonWS st).1.txt.length
      ≤ st.rem.length := by
  obtain ⟨pre, h⟩ := nextNonWS_append_txt st
  have := congrArg List.length h
  simp only [List.length_append] at this
  omega

theorem nextNonWS_string_len (st : PSt)
    (h : (nextNonWS st).1.ty = TokTy.string) :
    2 ≤ (nextNonWS st).1.txt.length := by
  obtain ⟨stm, h1, _, _⟩ := nextNonWS_eq_next st
  rw [h1] at h ⊢
  rw [next_fst_txt]
  exact tokenAt_string_len _ h

theorem nextNonWS_malformed_txt (st : PSt)
    (h : (nextNonWS st).1.ty = TokTy.malformed) :
    (nextNonWS st).1.txt = [] := by
  obtain ⟨stm, h1, _, _⟩ := nextNonWS_eq_next st
  rw [h1] at h ⊢
  rw [next_fst_txt]
  exact tokenAt_malformed_txt _ h

theorem withErr_rem (st : PSt) (e : List Char) : (st.withErr e).rem = st.rem :=
  rfl

theorem withErr_err (st : PSt) (e : List Char) : (st.withErr e).err = e := rfl

theorem pair_eq {α β : Type} {a c : α} {b d : β}
    (h : (a, b) = (c, d)) : a = c ∧ b = d := by
  cases h; exact ⟨rfl, rfl⟩

/-! ## Parser-state lemmas: the remainder only shrinks -/

theorem read_suffix :
    ∀ f,
      (∀ st res st', read f st = some (res, st') → st'.rem <:+ st.rem) ∧
      (∀ cur st res st', readDict f cur st = some (res, st') →
        st'.rem <:+ st.rem) ∧
      (∀ cur i st res st', readList f cur i st = some (res, st') →
        st'.rem <:+ st.rem) := by
  intro f
  induction f with
  | zero =>
    refine ⟨?_, ?_, ?_⟩
    · intro st res st' h; rw [read] at h; cases h
    · intro cur st res st' h; rw [readDict] at h; cases h
    · intro cur i st res st' h; rw [readList] at h; cases h
  | succ m ih =>
    obtain ⟨ihr, ihd, ihl⟩ := ih
    refine ⟨?_, ?_, ?_⟩
    · intro st res st' h
      rw [read] at h
      by_cases hb : ((nextNonWS st).1.txt = lbrace)
      · rw [if_pos hb] at h
        by_cases hp : ((nextNonWS (nextNonWS st).2).1.txt = rbrace)
        · rw [if_pos hp] at h
          obtain ⟨h1, h2⟩ := pair_eq (Option.some.inj h)
          subst h2
          exact (nextNonWS_rem_suffix _).trans (nextNonWS_rem_suffix st)
        · rw [if_neg hp] at h
          exact (ihd _ _ _ _ h).trans (nextNonWS_rem_suffix st)
      · rw [if_neg hb] at h
        by_cases hk : ((nextNonWS st).1.txt = lbrack)
        · rw [if_pos hk] at h
          by_cases hp : ((nextNonWS (nextNonWS st).2).1.txt = rbrack)
          · rw [if_pos hp] at h
            obtain ⟨h1, h2⟩ := pair_eq (Option.some.inj h)
            subst h2
            exact (nextNonWS_rem_suffix _).trans (nextNonWS_rem_suffix st)
          · rw [if_neg hp] at h
            exact (ihl _ _ _ _ _ h).trans (nextNonWS_rem_suffix st)
        · rw [if_neg hk] at h
          by_cases hm2 : ((nextNonWS st).1.ty = TokTy.malformed)
          · rw [if_pos hm2] at h
            obtain ⟨h1, h2⟩ := pair_eq (Option.some.inj h)
            subst h2
            exact nextNonWS_rem_suffix st
          · rw [if_neg hm2] at h
            obtain ⟨h1, h2⟩ := pair_eq (Option.some.inj h)
            subst h2
            exact nextNonWS_rem_suffix st
    · intro cur st res st' h
      rw [readDict] at h
      by_cases hks : ((nextNonWS st).1.ty ≠ TokTy.string)
      · rw [if_pos hks] at h
        obtain ⟨h1, h2⟩ := pair_eq (Option.some.inj h)
        subst h2
        exact nextNonWS_rem_suffix st
      · rw [if_neg hks] at h
        by_cases hc : ((nextNonWS (nextNonWS st).2).1.txt = [':'])
        · rw [if_pos hc] at h
          split at h
          · cases h
          · rename_i st3 heq
            obtain ⟨h1, h2⟩ := pair_eq (Option.some.inj h)
            subst h2
            exact (ihr _ _ _ heq).trans
              ((nextNonWS_rem_suffix _).trans (nextNonWS_rem_suffix st))
          · rename_i v st3 heq
            dsimp only [] at h
            have hsuf3 : st3.rem <:+ st.rem :=
              (ihr _ _ _ heq).trans
                ((nextNonWS_rem_suffix _).trans (nextNonWS_rem_suffix st))
            by_cases hcm : ((nextNonWS st3).1.txt = rbrace)
            · rw [if_pos hcm] at h
              obtain ⟨h1, h2⟩ := pair_eq (Option.some.inj h)
              subst h2
              exact (nextNonWS_rem_suffix _).trans hsuf3
            · rw [if_neg hcm] at h
              by_cases hcm2 : ((nextNonWS st3).1.txt = [','])
              · rw [if_pos hcm2] at h
                exact (ihd _ _ _ _ h).trans
                  ((nextNonWS_rem_suffix _).trans hsuf3)
              · rw [if_neg hcm2] at h
                obtain ⟨h1, h2⟩ := pair_eq (Option.some.inj h)
                subst h2
                exact (nextNonWS_rem_suffix _).trans hsuf3
        · rw [if_neg hc] at h
          obtain ⟨h1, h2⟩ := pair_eq (Option.some.inj h)
          subst h2
          exact (nextNonWS_rem_suffix _).trans (nextNonWS_rem_suffix st)
    · intro cur i st res st' h
      rw [readList] at h
      split at h
      · cases h
      · rename_i st1 heq
        obtain ⟨h1, h2⟩ := pair_eq (Option.some.inj h)
        subst h2
        exact ihr _ _ _ heq
      · rename_i v st1 heq
        dsimp only [] at h
        have hsuf1 : st1.rem <:+ st.rem := ihr _ _ _ heq
        by_cases hcm : ((nextNonWS st1).1.txt = rbrack)
        · rw [if_pos hcm] at h
          obtain ⟨h1, h2⟩ := pair_eq (Option.some.inj h)
          subst h2
          exact (nextNonWS_rem_suffix _).trans hsuf1
        · rw [if_neg hcm] at h
          by_cases hcm2 : ((nextNonWS st1).1.txt = [','])
          · rw [if_pos hcm2] at h
            exact (ihl _ _ _ _ _ h).trans
              ((nextNonWS_rem_suffix _).trans hsuf1)
          · rw [if_neg hcm2] at h
            obtain ⟨h1, h2⟩ := pair_eq (Option.some.inj h)
            subst h2
            exact (nextNonWS_rem_suffix _).trans hsuf1

theorem read_suffix_len {f : Nat} {st : PSt} {res : Option Val} {st' : PSt}
    (h : read f st = some (res, st')) : st'.rem.length ≤ st.rem.length :=
  ((read_suffix f).1 st res st' h).length_le

/-! ## Sufficiency: the top-level budget is never exhausted -/

theorem read_ne_none :
    ∀ f,
      (∀ st, 2 * st.rem.length + 1 ≤ f → read f st ≠ none) ∧
      (∀ cur st, 2 * st.rem.length + 1 ≤ f → readDict f cur st ≠ none) ∧
      (∀ cur i st, 2 * st.rem.length + 2 ≤ f →
        readList f cur i st ≠ none) := by
  intro f
  induction f with
  | zero =>
    refine ⟨?_, ?_, ?_⟩ <;> (intros; omega)
  | succ m ih =>
    obtain ⟨ihr, ihd, ihl⟩ := ih
    refine ⟨?_, ?_, ?_⟩
    · intro st hf
      rw [read]
      by_cases hb : ((nextNonWS st).1.txt = lbrace)
      · rw [if_pos hb]
        by_cases hp : ((nextNonWS (nextNonWS st).2).1.txt = rbrace)
        · rw [if_pos hp]; simp
        · rw [if_neg hp]
          have hcons := nextNonWS_consume st
          have htxt : (nextNonWS st).1.txt.length = 1 := by rw [hb]; rfl
          exact ihd _ _ (by omega)
      · rw [if_neg hb]
        by_cases hk : ((nextNonWS st).1.txt = lbrack)
        · rw [if_pos hk]
          by_cases hp : ((nextNonWS (nextNonWS st).2).1.txt = rbrack)
          · rw [if_pos hp]; simp
          · rw [if_neg hp]
            have hcons := nextNonWS_consume st
            have htxt : (nextNonWS st).1.txt.length = 1 := by rw [hk]; rfl
            exact ihl _ _ _ (by omega)
        · rw [if_neg hk]
          by_cases hm2 : ((nextNonWS st).1.ty = TokTy.malformed)
          · rw [if_pos hm2]; simp
          · rw [if_neg hm2]; simp
    · intro cur st hf
      rw [readDict]
      by_cases hks : ((nextNonWS st).1.ty ≠ TokTy.string)
      · rw [if_pos hks]; simp
      · rw [if_neg hks]
        have hklen : 2 ≤ (nextNonWS st).1.txt.length :=
          nextNonWS_string_len st (not_not.mp hks)
        have hcons := nextNonWS_consume st
        by_cases hc : ((nextNonWS (nextNonWS st).2).1.txt = [':'])
        · rw [if_pos hc]
          have hcons2 := nextNonWS_consume (nextNonWS st).2
          have hclen : (nextNonWS (nextNonWS st).2).1.txt.length = 1 := by
            rw [hc]; rfl
          split
          · rename_i heq
            exact absurd heq (ihr _ (by omega))
          · simp
          · rename_i v st3 heq
            dsimp only []
            have hlen3 := read_suffix_len heq
            have hcons3 := nextNonWS_consume st3
            by_cases hcm : ((nextNonWS st3).1.txt = rbrace)
            · rw [if_pos hcm]; simp
            · rw [if_neg hcm]
              by_cases hcm2 : ((nextNonWS st3).1.txt = [','])
              · rw [if_pos hcm2]
                have hcmlen : (nextNonWS st3).1.txt.length = 1 := by
                  rw [hcm2]; rfl
                exact ihd _ _ (by omega)
              · rw [if_neg hcm2]; simp
        · rw [if_neg hc]; simp
    · intro cur i st hf
      rw [readList]
      split
      · rename_i heq
        exact absurd heq (ihr _ (by omega))
      · simp
      · rename_i v st1 heq
        dsimp only []
        have hlen1 := read_suffix_len heq
        have hcons1 := nextNonWS_consume st1
        by_cases hcm : ((nextNonWS st1).1.txt = rbrack)
        · rw [if_pos hcm]; simp
        · rw [if_neg hcm]
          by_cases hcm2 : ((nextNonWS st1).1.txt = [','])
          · rw [if_pos hcm2]
            have hcmlen : (nextNonWS st1).1.txt.length = 1 := by
              rw [hcm2]; rfl
            exact ihl _ _ _ (by omega)
          · rw [if_neg hcm2]; simp

theorem readFull_ne_none (s : List Char) : readFull s ≠ none :=
  (read_ne_none (2 * s.length + 1)).1 (read0 s) (by simp [read0])

/-! ## Error shape: Claim C4 -/

theorem trunc20_len (s : List Char) : (trunc20 s).length ≤ 20 := by
  rw [trunc20]
  by_cases h : s.length > 20
  · rw [if_pos h]
    simp
  · rw [if_neg h]
    omega

theorem errMsg_ne_nil (l p : Nat) (e g : List Char) : errMsg l p e g ≠ [] := by
  intro h
  have := congrArg List.length h
  simp [errMsg] at this

theorem read_err_shape :
    ∀ f,
      (∀ st res st', read f st = some (res, st') →
        (res ≠ none → st'.err = st.err) ∧
        (res = none → ∃ l p e g, st'.err = errMsg l p e g ∧
          g.length ≤ 20)) ∧
      (∀ cur st res st', readDict f cur st = some (res, st') →
        (res ≠ none → st'.err = st.err) ∧
        (res = none → ∃ l p e g, st'.err = errMsg l p e g ∧
          g.length ≤ 20)) ∧
      (∀ cur i st res st', readList f cur i st = some (res, st') →
        (res ≠ none → st'.err = st.err) ∧
        (res = none → ∃ l p e g, st'.err = errMsg l p e g ∧
          g.length ≤ 20)) := by
  intro f
  induction f with
  | zero =>
    refine ⟨?_, ?_, ?_⟩
    · intro st res st' h; rw [read] at h; cases h
    · intro cur st res st' h; rw [readDict] at h; cases h
    · intro cur i st res st' h; rw [readList] at h; cases h
  | succ m ih =>
    obtain ⟨ihr, ihd, ihl⟩ := ih
    refine ⟨?_, ?_, ?_⟩
    · intro st res st' h
      rw [read] at h
      by_cases hb : ((nextNonWS st).1.txt = lbrace)
      · rw [if_pos hb] at h
        by_cases hp : ((nextNonWS (nextNonWS st).2).1.txt = rbrace)
        · rw [if_pos hp] at h
          obtain ⟨h1, h2⟩ := pair_eq (Option.some.inj h)
          subst h2
          refine ⟨fun _ => ?_, fun hres => ?_⟩
          · rw [nextNonWS_snd_err, nextNonWS_snd_err]
          · rw [← h1] at hres; cases hres
        · rw [if_neg hp] at h
          have := ihd _ _ _ _ h
          refine ⟨fun hres => ?_, this.2⟩
          rw [this.1 hres, nextNonWS_snd_err]
      · rw [if_neg hb] at h
        by_cases hk : ((nextNonWS st).1.txt = lbrack)
        · rw [if_pos hk] at h
          by_cases hp : ((nextNonWS (nextNonWS st).2).1.txt = rbrack)
          · rw [if_pos hp] at h
            obtain ⟨h1, h2⟩ := pair_eq (Option.some.inj h)
            subst h2
            refine ⟨fun _ => ?_, fun hres => ?_⟩
            · rw [nextNonWS_snd_err, nextNonWS_snd_err]
            · rw [← h1] at hres; cases hres
          · rw [if_neg hp] at h
            have := ihl _ _ _ _ _ h
            refine ⟨fun hres => ?_, this.2⟩
            rw [this.1 hres, nextNonWS_snd_err]
        · rw [if_neg hk] at h
          by_cases hm2 : ((nextNonWS st).1.ty = TokTy.malformed)
          · rw [if_pos hm2] at h
            obtain ⟨h1, h2⟩ := pair_eq (Option.some.inj h)
            subst h2
            refine ⟨fun hres => ?_, fun _ => ?_⟩
            · exact absurd h1.symm hres
            · exact ⟨_, _, _, _, rfl, trunc20_len _⟩
          · rw [if_neg hm2] at h
            obtain ⟨h1, h2⟩ := pair_eq (Option.some.inj h)
            subst h2
            refine ⟨fun _ => nextNonWS_snd_err st, fun hres => ?_⟩
            rw [← h1] at hres; cases hres
    · intro cur st res st' h
      rw [readDict] at h
      by_cases hks : ((nextNonWS st).1.ty ≠ TokTy.string)
      · rw [if_pos hks] at h
        obtain ⟨h1, h2⟩ := pair_eq (Option.some.inj h)
        subst h2
        refine ⟨fun hres => absurd h1.symm hres, fun _ => ?_⟩
        exact ⟨_, _, _, _, rfl, trunc20_len _⟩
      · rw [if_neg hks] at h
        by_cases hc : ((nextNonWS (nextNonWS st).2).1.txt = [':'])
        · rw [if_pos hc] at h
          split at h
          · cases h
          · rename_i st3 heq
            obtain ⟨h1, h2⟩ := pair_eq (Option.some.inj h)
            subst h2
            have := ihr _ _ _ heq
            refine ⟨fun hres => absurd h1.symm hres, fun _ => ?_⟩
            exact this.2 rfl
          · rename_i v st3 heq
            dsimp only [] at h
            have hst3 := (ihr _ _ _ heq).1 (by simp)
            rw [nextNonWS_snd_err, nextNonWS_snd_err] at hst3
            by_cases hcm : ((nextNonWS st3).1.txt = rbrace)
            · rw [if_pos hcm] at h
              obtain ⟨h1, h2⟩ := pair_eq (Option.some.inj h)
              subst h2
              refine ⟨fun _ => ?_, fun hres => ?_⟩
              · rw [nextNonWS_snd_err, hst3]
              · rw [← h1] at hres; cases hres
            · rw [if_neg hcm] at h
              by_cases hcm2 : ((nextNonWS st3).1.txt = [','])
              · rw [if_pos hcm2] at h
                have := ihd _ _ _ _ h
                refine ⟨fun hres => ?_, this.2⟩
                rw [this.1 hres, nextNonWS_snd_err, hst3]
              · rw [if_neg hcm2] at h
                obtain ⟨h1, h2⟩ := pair_eq (Option.some.inj h)
                subst h2
                refine ⟨fun hres => absurd h1.symm hres, fun _ => ?_⟩
                exact ⟨_, _, _, _, rfl, trunc20_len _⟩
        · rw [if_neg hc] at h
          obtain ⟨h1, h2⟩ := pair_eq (Option.some.inj h)
          subst h2
          refine ⟨fun hres => absurd h1.symm hres, fun _ => ?_⟩
          exact ⟨_, _, _, _, rfl, trunc20_len _⟩
    · intro cur i st res st' h
      rw [readList] at h
      split at h
      · cases h
      · rename_i st1 heq
        obtain ⟨h1, h2⟩ := pair_eq (Option.some.inj h)
        subst h2
        have := ihr _ _ _ heq
        refine ⟨fun hres => absurd h1.symm hres, fun _ => this.2 rfl⟩
      · rename_i v st1 heq
        dsimp only [] at h
        have hst1 := (ihr _ _ _ heq).1 (by simp)
        by_cases hcm : ((nextNonWS st1).1.txt = rbrack)
        · rw [if_pos hcm] at h
          obtain ⟨h1, h2⟩ := pair_eq (Option.some.inj h)
          subst h2
          refine ⟨fun _ => ?_, fun hres => ?_⟩
          · rw [nextNonWS_snd_err, hst1]
          · rw [← h1] at hres; cases hres
        · rw [if_neg hcm] at h
          by_cases hcm2 : ((nextNonWS st1).1.txt = [','])
          · rw [if_pos hcm2] at h
            have := ihl _ _ _ _ _ h
            refine ⟨fun hres => ?_, this.2⟩
            rw [this.1 hres, nextNonWS_snd_err, hst1]
          · rw [if_neg hcm2] at h
            obtain ⟨h1, h2⟩ := pair_eq (Option.some.inj h)
            subst h2
            refine ⟨fun hres => absurd h1.symm hres, fun _ => ?_⟩
            exact ⟨_, _, _, _, rfl, trunc20_len _⟩

/-- Claim C4: for every input range, `read` (called, as the top-level
entry point does, with a caller-fresh empty error string) returns either
a tree together with an untouched empty error, or a null tree together
with a non-empty message of the shape built by `fn_err` — the line, the
column, the description of what was expected, and the offending token's
text truncated to at most 20 characters. -/
theorem c4_total_result_dichotomy (s : List Char) :
    ∃ res st', readFull s = some (res, st') ∧
      (((∃ v, res = some v) ∧ st'.err = []) ∨
        (res = none ∧ st'.err ≠ [] ∧
          ∃ l p e g, st'.err = errMsg l p e g ∧ g.length ≤ 20)) := by
  cases h : readFull s with
  | none => exact absurd h (readFull_ne_none s)
  | some q =>
    obtain ⟨res, st'⟩ := q
    refine ⟨res, st', rfl, ?_⟩
    have hshape := (read_err_shape (2 * s.length + 1)).1 (read0 s) res st' h
    cases res with
    | some v =>
      left
      exact ⟨⟨v, rfl⟩, by rw [hshape.1 (by simp)]; rfl⟩
    | none =>
      right
      obtain ⟨l, p, e, g, hmsg, hlen⟩ := hshape.2 rfl
      exact ⟨rfl, by rw [hmsg]; exact errMsg_ne_nil l p e g,
        l, p, e, g, hmsg, hlen⟩

/-! ## Character-class and span helpers -/

theorem wordChar_not_ws {c : Char} (h : isWordChar c = true) :
    isWS c = false := by
  by_contra hne
  have hws : isWS c = true := by simpa using hne
  rw [isWS] at hws
  simp only [Bool.or_eq_true, decide_eq_true_eq] at hws
  rcases hws with ((rfl | rfl) | rfl) | rfl <;> exact absurd h (by decide)

theorem wordChar_not_quote {c : Char} (h : isWordChar c = true) :
    c ≠ '"' := by
  intro he
  subst he
  exact absurd h (by decide)

theorem sym_not_ws {c : Char} (h : isSym c = true) : isWS c = false := by
  rw [isSym] at h
  simp only [Bool.or_eq_true, decide_eq_true_eq] at h
  rcases h with ((((rfl | rfl) | rfl) | rfl) | rfl) | rfl <;> decide

theorem sym_not_quote {c : Char} (h : isSym c = true) : c ≠ '"' := by
  intro he
  subst he
  exact absurd h (by decide)

theorem takeWhile_nil_head {p : Char → Bool} {c : Char} {l : List Char}
    (h : (c :: l).takeWhile p = []) : p c = false := by
  rw [List.takeWhile_cons] at h
  by_cases hc : p c = true
  · rw [if_pos hc] at h; cases h
  · simpa using hc

theorem dropWhile_head_false (p : Char → Bool) :
    ∀ (l : List Char) (c : Char) (r : List Char),
      l.dropWhile p = c :: r → p c = false := by
  intro l
  induction l with
  | nil => intro c r h; cases h
  | cons a as ih =>
    intro c r h
    rw [List.dropWhile_cons] at h
    by_cases ha : p a = true
    · rw [if_pos ha] at h
      exact ih c r h
    · rw [if_neg ha] at h
      obtain ⟨h1, _⟩ := List.cons.inj h
      subst h1
      simpa using ha

theorem takeWhile_append_of {p : Char → Bool} :
    ∀ w rest : List Char, w.all p = true →
      (∀ c r, rest = c :: r → p c = false) →
      (w ++ rest).takeWhile p = w ∧ (w ++ rest).dropWhile p = rest := by
  intro w
  induction w with
  | nil =>
    intro rest _ hrest
    cases rest with
    | nil => exact ⟨rfl, rfl⟩
    | cons c r =>
      constructor
      · simp [List.takeWhile_cons, hrest c r rfl]
      · simp [List.dropWhile_cons, hrest c r rfl]
  | cons a as ih =>
    intro rest hall hrest
    rw [List.all_cons, Bool.and_eq_true] at hall
    obtain ⟨ha, has⟩ := hall
    obtain ⟨ih1, ih2⟩ := ih rest has hrest
    constructor
    · rw [List.cons_append, List.takeWhile_cons, if_pos ha, ih1]
    · rw [List.cons_append, List.dropWhile_cons, if_pos ha, ih2]

theorem takeWhile_self_all (p : Char → Bool) :
    ∀ l : List Char, (l.takeWhile p).all p = true := by
  intro l
  induction l with
  | nil => rfl
  | cons a as ih =>
    rw [List.takeWhile_cons]
    by_cases ha : p a = true
    · rw [if_pos ha, List.all_cons, ha, ih]; rfl
    · rw [if_neg ha]; rfl

/-! ## Append-stability of the tokenizer -/

theorem strScanAux_append_ext :
    ∀ (s : List Char) (b : Bool) (t r ext : List Char),
      strScanAux s b = some (t, r) →
      strScanAux (s ++ ext) b = some (t, r ++ ext) := by
  intro s
  induction s with
  | nil => intro b t r ext h; cases h
  | cons c cs ih =>
    intro b t r ext h
    rw [strScanAux] at h
    rw [List.cons_append, strScanAux]
    by_cases hesc : b = true
    · rw [if_pos hesc] at h ⊢
      by_cases hnl : (c = '\n' || c = '\x0d') = true
      · rw [if_pos hnl] at h; cases h
      · rw [if_neg hnl] at h ⊢
        rw [Option.map_eq_some'] at h
        obtain ⟨p, hp, hpe⟩ := h
        rw [ih false p.1 p.2 ext (by simpa using hp)]
        cases hpe
        rfl
    · rw [if_neg hesc] at h ⊢
      by_cases hq : c = '"'
      · rw [if_pos hq] at h ⊢
        cases h
        rfl
      · rw [if_neg hq] at h ⊢
        by_cases hbs : c = '\\'
        · rw [if_pos hbs] at h ⊢
          rw [Option.map_eq_some'] at h
          obtain ⟨p, hp, hpe⟩ := h
          rw [ih true p.1 p.2 ext (by simpa using hp)]
          cases hpe
          rfl
        · rw [if_neg hbs] at h ⊢
          rw [Option.map_eq_some'] at h
          obtain ⟨p, hp, hpe⟩ := h
          rw [ih false p.1 p.2 ext (by simpa using hp)]
          cases hpe
          rfl

theorem strMatch_append_ext {s t r ext : List Char}
    (h : strMatch s = some (t, r)) :
    strMatch (s ++ ext) = some (t, r ++ ext) := by
  cases s with
  | nil => cases h
  | cons c cs =>
    rw [strMatch] at h
    rw [List.cons_append, strMatch]
    by_cases hq : c = '"'
    · rw [if_pos hq] at h ⊢
      rw [Option.map_eq_some'] at h
      obtain ⟨p, hp, hpe⟩ := h
      rw [strScanAux_append_ext cs false p.1 p.2 ext (by simpa using hp)]
      cases hpe
      rfl
    · rw [if_neg hq] at h; cases h

theorem tokenAt_append_ext (s ext : List Char)
    (hm : (tokenAt s).1 ≠ TokTy.malformed)
    (hr : (tokenAt s).2.2 ≠ []) :
    tokenAt (s ++ ext) =
      ((tokenAt s).1, (tokenAt s).2.1, (tokenAt s).2.2 ++ ext) := by
  by_cases hw : s.takeWhile isWS = []
  · cases hmt : strMatch s with
    | some p =>
      have hres : tokenAt s = (.string, p.1, p.2) := by
        simp only [tokenAt, hw, ne_eq, not_true_eq_false, if_false, hmt]
      rw [hres]
      obtain ⟨cs, rfl⟩ : ∃ cs, s = '"' :: cs := by
        cases s with
        | nil => cases hmt
        | cons c cs =>
          rw [strMatch] at hmt
          by_cases hq : c = '"'
          · exact ⟨cs, by rw [hq]⟩
          · rw [if_neg hq] at hmt; cases hmt
      have hm2 := @strMatch_append_ext _ _ _ ext hmt
      have htw : ('"' :: cs ++ ext).takeWhile isWS = [] := by
        rw [List.cons_append, List.takeWhile_cons,
          if_neg (by simp [isWS])]
      simp only [tokenAt, htw, ne_eq, not_true_eq_false, if_false, hm2]
    | none =>
      by_cases hw2 : s.takeWhile isWordChar = []
      · -- symbol or malformed branch; malformed excluded by hm
        cases s with
        | nil =>
          exfalso
          exact hm rfl
        | cons c r =>
          by_cases hc : isSym c = true
          · have hres : tokenAt (c :: r) = (.symbol, [c], r) := by
              simp only [tokenAt, hw, ne_eq, not_true_eq_false, if_false,
                hmt, hw2, hc, if_true]
            rw [hres]
            have hcw : isWS c = false := takeWhile_nil_head hw
            have hcq : c ≠ '"' := sym_not_quote hc
            have hcwd : isWordChar c = false := takeWhile_nil_head hw2
            rw [List.cons_append]
            have htw : (c :: (r ++ ext)).takeWhile isWS = [] := by
              rw [List.takeWhile_cons, if_neg (by simp [hcw])]
            have hsm : strMatch (c :: (r ++ ext)) = none := by
              rw [strMatch, if_neg hcq]
            have htw2 : (c :: (r ++ ext)).takeWhile isWordChar = [] := by
              rw [List.takeWhile_cons, if_neg (by simp [hcwd])]
            simp only [tokenAt, htw, ne_eq, not_true_eq_false, if_false,
              hsm, htw2]
            rw [if_pos hc]
          · exfalso
            apply hm
            simp only [tokenAt, hw, ne_eq, not_true_eq_false, if_false,
              hmt, hw2]
            simp [hc]
      · -- word branch
        have hres : tokenAt s =
            (.word, s.takeWhile isWordChar, s.dropWhile isWordChar) := by
          simp only [tokenAt, hw, ne_eq, not_true_eq_false, if_false, hmt,
            hw2, not_false_eq_true, if_true]
        rw [hres] at hr ⊢
        obtain ⟨a, as, rfl⟩ : ∃ a as, s = a :: as := by
          cases s with
          | nil => exact absurd rfl hw2
          | cons a as => exact ⟨a, as, rfl⟩
        have haw : isWordChar a = true := by
          by_contra hna
          rw [List.takeWhile_cons, if_neg (by simpa using hna)] at hw2
          exact hw2 rfl
        have hsplit := List.takeWhile_append_dropWhile (p := isWordChar)
          (l := a :: as)
        obtain ⟨c2, r2, hd2⟩ : ∃ c2 r2,
            (a :: as).dropWhile isWordChar = c2 :: r2 := by
          cases hdw : (a :: as).dropWhile isWordChar with
          | nil => exact absurd hdw (by simpa using hr)
          | cons c2 r2 => exact ⟨c2, r2, rfl⟩
        have hc2 : isWordChar c2 = false := dropWhile_head_false _ _ _ _ hd2
        have hspan := takeWhile_append_of (p := isWordChar)
          ((a :: as).takeWhile isWordChar)
          ((a :: as).dropWhile isWordChar ++ ext)
          (takeWhile_self_all _ _)
          (by
            intro c r hcr
            rw [hd2, List.cons_append] at hcr
            obtain ⟨h1, _⟩ := List.cons.inj hcr
            subst h1
            exact hc2)
        rw [← List.append_assoc, hsplit] at hspan
        have htw : (a :: as ++ ext).takeWhile isWS = [] := by
          rw [List.cons_append, List.takeWhile_cons,
            if_neg (by simp [wordChar_not_ws haw])]
        have hsm : strMatch (a :: as ++ ext) = none := by
          rw [List.cons_append, strMatch, if_neg (wordChar_not_quote haw)]
        have hw2e : (a :: as ++ ext).takeWhile isWordChar ≠ [] := by
          rw [hspan.1]
          exact hw2
        simp only [tokenAt, htw, ne_eq, not_true_eq_false, if_false, hsm,
          hw2e, not_false_eq_true, if_true, hspan.1, hspan.2]
        rw [if_pos hw2]
  · -- whitespace branch
    have hres : tokenAt s =
        (.whitespace, s.takeWhile isWS, s.dropWhile isWS) := by
      simp only [tokenAt, ne_eq, hw, not_false_eq_true, if_true]
    rw [hres] at hr ⊢
    have hsplit := List.takeWhile_append_dropWhile (p := isWS) (l := s)
    obtain ⟨c2, r2, hd2⟩ : ∃ c2 r2, s.dropWhile isWS = c2 :: r2 := by
      cases hdw : s.dropWhile isWS with
      | nil => exact absurd hdw (by simpa using hr)
      | cons c2 r2 => exact ⟨c2, r2, rfl⟩
    have hc2 : isWS c2 = false := dropWhile_head_false _ _ _ _ hd2
    have hspan := takeWhile_append_of (p := isWS)
      (s.takeWhile isWS) (s.dropWhile isWS ++ ext)
      (takeWhile_self_all _ _)
      (by
        intro c r hcr
        rw [hd2, List.cons_append] at hcr
        obtain ⟨h1, _⟩ := List.cons.inj hcr
        subst h1
        exact hc2)
    rw [← List.append_assoc, hsplit] at hspan
    have hwe : (s ++ ext).takeWhile isWS ≠ [] := by
      rw [hspan.1]
      exact hw
    simp only [tokenAt, ne_eq, hwe, not_false_eq_true, if_true, hspan.1,
      hspan.2]
    rw [if_pos hw]

theorem suffix_ne_nil {l m : List Char} (h : l <:+ m) (hl : l ≠ []) :
    m ≠ [] := by
  obtain ⟨t, ht⟩ := h
  intro hm
  rw [hm] at ht
  obtain ⟨_, h2⟩ := List.append_eq_nil.mp ht
  exact hl h2

theorem next_append (st : PSt) (ext : List Char)
    (hm : (next st).1.ty ≠ TokTy.malformed)
    (hr : (next st).2.rem ≠ []) :
    next ⟨st.rem ++ ext, st.line, st.pos, st.err⟩ =
      ((next st).1,
        ⟨(next st).2.rem ++ ext, (next st).2.line, (next st).2.pos,
          (next st).2.err⟩) := by
  have h := tokenAt_append_ext st.rem ext hm hr
  simp only [next, h]

theorem nextNonWSAux_rem_suffix (f : Nat) (st : PSt) :
    (nextNonWSAux f st).2.rem <:+ st.rem := by
  obtain ⟨stm, h1, h2, _⟩ := nextNonWSAux_eq_next f st
  rw [h1, next_snd_rem]
  exact List.IsSuffix.trans
    ⟨(tokenAt stm.rem).2.1, tokenAt_append stm.rem⟩ h2

theorem nextNonWSAux_append :
    ∀ (f : Nat) (st : PSt) (ext : List Char),
      (nextNonWSAux f st).1.ty ≠ TokTy.malformed →
      (nextNonWSAux f st).2.rem ≠ [] →
      nextNonWSAux f ⟨st.rem ++ ext, st.line, st.pos, st.err⟩ =
        ((nextNonWSAux f st).1,
          ⟨(nextNonWSAux f st).2.rem ++ ext, (nextNonWSAux f st).2.line,
            (nextNonWSAux f st).2.pos, (nextNonWSAux f st).2.err⟩) := by
  intro f
  induction f with
  | zero =>
    intro st ext hm hr
    exact next_append st ext hm hr
  | succ m ih =>
    intro st ext hm hr
    by_cases hws : ((next st).1.ty = TokTy.whitespace)
    · have hred : nextNonWSAux (m + 1) st = nextNonWSAux m (next st).2 := by
        rw [nextNonWSAux, if_pos hws]
      rw [hred] at hm hr ⊢
      have hrs : (next st).2.rem ≠ [] :=
        suffix_ne_nil (nextNonWSAux_rem_suffix m (next st).2) hr
      have hstep := next_append st ext (by rw [hws]; decide) hrs
      rw [nextNonWSAux, hstep]
      dsimp only []
      rw [if_pos hws]
      exact ih (next st).2 ext hm hr
    · have hred : nextNonWSAux (m + 1) st = next st := by
        rw [nextNonWSAux, if_neg hws]
      rw [hred] at hm hr ⊢
      have hstep := next_append st ext hm hr
      rw [nextNonWSAux, hstep]
      dsimp only []
      rw [if_neg hws]

theorem nextNonWS_append (st : PSt) (ext : List Char)
    (hm : (nextNonWS st).1.ty ≠ TokTy.malformed)
    (hr : (nextNonWS st).2.rem ≠ []) :
    nextNonWS ⟨st.rem ++ ext, st.line, st.pos, st.err⟩ =
      ((nextNonWS st).1,
        ⟨(nextNonWS st).2.rem ++ ext, (nextNonWS st).2.line,
          (nextNonWS st).2.pos, (nextNonWS st).2.err⟩) := by
  have hlen1 : st.rem.length < (st.rem ++ ext).length + 1 := by
    rw [List.length_append]; omega
  have hirrel : nextNonWSAux ((st.rem ++ ext).length + 1) st = nextNonWS st := by
    rw [nextNonWS]
    exact nextNonWSAux_irrel _ _ st hlen1 (by omega)
  have h2 := nextNonWSAux_append ((st.rem ++ ext).length + 1) st ext
    (by rw [hirrel]; exact hm) (by rw [hirrel]; exact hr)
  rw [hirrel] at h2
  rw [nextNonWS]
  exact h2

theorem nextNonWS_not_malformed_of_txt (st : PSt)
    (h : (nextNonWS st).1.txt ≠ []) :
    (nextNonWS st).1.ty ≠ TokTy.malformed := by
  intro hty
  exact h (nextNonWS_malformed_txt st hty)

/-! ## One-level facts about successful parses -/

theorem read_success_first_tok {f : Nat} {st : PSt} {v : Val} {st' : PSt}
    (h : read f st = some (some v, st')) :
    (nextNonWS st).1.ty ≠ TokTy.malformed := by
  cases f with
  | zero => rw [read] at h; cases h
  | succ m =>
    rw [read] at h
    by_cases hb : ((nextNonWS st).1.txt = lbrace)
    · exact nextNonWS_not_malformed_of_txt st (by rw [hb]; simp [lbrace])
    · rw [if_neg hb] at h
      by_cases hk : ((nextNonWS st).1.txt = lbrack)
      · exact nextNonWS_not_malformed_of_txt st (by rw [hk]; simp [lbrack])
      · rw [if_neg hk] at h
        by_cases hm2 : ((nextNonWS st).1.ty = TokTy.malformed)
        · rw [if_pos hm2] at h
          obtain ⟨h1, _⟩ := pair_eq (Option.some.inj h)
          cases h1
        · exact hm2

theorem readDict_success_key {f : Nat} {cur : Val} {st : PSt} {v : Val}
    {st' : PSt} (h : readDict f cur st = some (some v, st')) :
    (nextNonWS st).1.ty = TokTy.string := by
  cases f with
  | zero => rw [readDict] at h; cases h
  | succ m =>
    rw [readDict] at h
    by_cases hks : ((nextNonWS st).1.ty ≠ TokTy.string)
    · rw [if_pos hks] at h
      obtain ⟨h1, _⟩ := pair_eq (Option.some.inj h)
      cases h1
    · exact not_not.mp hks

theorem read_consumes_first {f : Nat} {st : PSt} {res : Option Val}
    {st' : PSt} (h : read f st = some (res, st')) :
    st'.rem <:+ (nextNonWS st).2.rem := by
  cases f with
  | zero => rw [read] at h; cases h
  | succ m =>
    rw [read] at h
    by_cases hb : ((nextNonWS st).1.txt = lbrace)
    · rw [if_pos hb] at h
      by_cases hp : ((nextNonWS (nextNonWS st).2).1.txt = rbrace)
      · rw [if_pos hp] at h
        obtain ⟨_, h2⟩ := pair_eq (Option.some.inj h)
        subst h2
        exact nextNonWS_rem_suffix _
      · rw [if_neg hp] at h
        exact (read_suffix m).2.1 _ _ _ _ h
    · rw [if_neg hb] at h
      by_cases hk : ((nextNonWS st).1.txt = lbrack)
      · rw [if_pos hk] at h
        by_cases hp : ((nextNonWS (nextNonWS st).2).1.txt = rbrack)
        · rw [if_pos hp] at h
          obtain ⟨_, h2⟩ := pair_eq (Option.some.inj h)
          subst h2
          exact nextNonWS_rem_suffix _
        · rw [if_neg hp] at h
          exact (read_suffix m).2.2 _ _ _ _ _ h
      · rw [if_neg hk] at h
        by_cases hm2 : ((nextNonWS st).1.ty = TokTy.malformed)
        · rw [if_pos hm2] at h
          obtain ⟨_, h2⟩ := pair_eq (Option.some.inj h)
          subst h2
          exact List.suffix_refl _
        · rw [if_neg hm2] at h
          obtain ⟨_, h2⟩ := pair_eq (Option.some.inj h)
          subst h2
          exact List.suffix_refl _

theorem readDict_consumes_first {f : Nat} {cur : Val} {st : PSt}
    {res : Option Val} {st' : PSt}
    (h : readDict f cur st = some (res, st')) :
    st'.rem <:+ (nextNonWS st).2.rem := by
  cases f with
  | zero => rw [readDict] at h; cases h
  | succ m =>
    rw [readDict] at h
    by_cases hks : ((nextNonWS st).1.ty ≠ TokTy.string)
    · rw [if_pos hks] at h
      obtain ⟨_, h2⟩ := pair_eq (Option.some.inj h)
      subst h2
      exact List.suffix_refl _
    · rw [if_neg hks] at h
      by_cases hc : ((nextNonWS (nextNonWS st).2).1.txt = [':'])
      · rw [if_pos hc] at h
        split at h
        · cases h
        · rename_i st3 heq
          obtain ⟨_, h2⟩ := pair_eq (Option.some.inj h)
          subst h2
          exact ((read_suffix m).1 _ _ _ heq).trans (nextNonWS_rem_suffix _)
        · rename_i v st3 heq
          dsimp only [] at h
          have hsuf3 : st3.rem <:+ (nextNonWS st).2.rem :=
            ((read_suffix m).1 _ _ _ heq).trans (nextNonWS_rem_suffix _)
          by_cases hcm : ((nextNonWS st3).1.txt = rbrace)
          · rw [if_pos hcm] at h
            obtain ⟨_, h2⟩ := pair_eq (Option.some.inj h)
            subst h2
            exact (nextNonWS_rem_suffix _).trans hsuf3
          · rw [if_neg hcm] at h
            by_cases hcm2 : ((nextNonWS st3).1.txt = [','])
            · rw [if_pos hcm2] at h
              exact ((read_suffix m).2.1 _ _ _ _ h).trans
                ((nextNonWS_rem_suffix _).trans hsuf3)
            · rw [if_neg hcm2] at h
              obtain ⟨_, h2⟩ := pair_eq (Option.some.inj h)
              subst h2
              exact (nextNonWS_rem_suffix _).trans hsuf3
      · rw [if_neg hc] at h
        obtain ⟨_, h2⟩ := pair_eq (Option.some.inj h)
        subst h2
        exact nextNonWS_rem_suffix _

theorem readList_success_head {f : Nat} {cur : Val} {i : Nat} {st : PSt}
    {v : Val} {st' : PSt}
    (h : readList f cur i st = some (some v, st')) :
    (nextNonWS st).1.ty ≠ TokTy.malformed ∧
      st'.rem <:+ (nextNonWS st).2.rem := by
  cases f with
  | zero => rw [readList] at h; cases h
  | succ m =>
    rw [readList] at h
    split at h
    · cases h
    · rename_i st1 heq
      obtain ⟨h1, _⟩ := pair_eq (Option.some.inj h)
      cases h1
    · rename_i w st2 heq
      dsimp only [] at h
      refine ⟨read_success_first_tok heq, ?_⟩
      have hs2 : st2.rem <:+ (nextNonWS st).2.rem := read_consumes_first heq
      by_cases hcm : ((nextNonWS st2).1.txt = rbrack)
      · rw [if_pos hcm] at h
        obtain ⟨_, h2⟩ := pair_eq (Option.some.inj h)
        subst h2
        exact ((nextNonWS_rem_suffix st2).trans hs2)
      · rw [if_neg hcm] at h
        by_cases hcm2 : ((nextNonWS st2).1.txt = [','])
        · rw [if_pos hcm2] at h
          exact (((read_suffix m).2.2 _ _ _ _ _ h).trans
            (nextNonWS_rem_suffix st2)).trans hs2
        · rw [if_neg hcm2] at h
          obtain ⟨h1, _⟩ := pair_eq (Option.some.inj h)
          cases h1

/-! ## Append stability of the parser (Claim C10) -/

theorem read_append_all :
    ∀ f,
      (∀ st v st' ext, read f st = some (some v, st') → st'.rem ≠ [] →
        read f ⟨st.rem ++ ext, st.line, st.pos, st.err⟩ =
          some (some v, ⟨st'.rem ++ ext, st'.line, st'.pos, st'.err⟩)) ∧
      (∀ cur st v st' ext, readDict f cur st = some (some v, st') →
        st'.rem ≠ [] →
        readDict f cur ⟨st.rem ++ ext, st.line, st.pos, st.err⟩ =
          some (some v, ⟨st'.rem ++ ext, st'.line, st'.pos, st'.err⟩)) ∧
      (∀ cur i st v st' ext, readList f cur i st = some (some v, st') →
        st'.rem ≠ [] →
        readList f cur i ⟨st.rem ++ ext, st.line, st.pos, st.err⟩ =
          some (some v, ⟨st'.rem ++ ext, st'.line, st'.pos, st'.err⟩)) := by
  intro f
  induction f with
  | zero =>
    refine ⟨?_, ?_, ?_⟩
    · intro st v st' ext h _; rw [read] at h; cases h
    · intro cur st v st' ext h _; rw [readDict] at h; cases h
    · intro cur i st v st' ext h _; rw [readList] at h; cases h
  | succ m ih =>
    obtain ⟨ihr, ihd, ihl⟩ := ih
    refine ⟨?_, ?_, ?_⟩
    · intro st v st' ext h hne
      have hfirst := read_consumes_first (f := m + 1) h
      rw [read] at h ⊢
      by_cases hb : ((nextNonWS st).1.txt = lbrace)
      · rw [if_pos hb] at h
        have hm1 : (nextNonWS st).1.ty ≠ TokTy.malformed :=
          nextNonWS_not_malformed_of_txt st (by rw [hb]; simp [lbrace])
        have hr1 : (nextNonWS st).2.rem ≠ [] := suffix_ne_nil hfirst hne
        have happ1 := nextNonWS_append st ext hm1 hr1
        rw [happ1]
        dsimp only []
        rw [if_pos hb]
        by_cases hp : ((nextNonWS (nextNonWS st).2).1.txt = rbrace)
        · rw [if_pos hp] at h
          obtain ⟨h1, h2⟩ := pair_eq (Option.some.inj h)
          subst h2
          have hv := Option.some.inj h1
          have hm2 : (nextNonWS (nextNonWS st).2).1.ty ≠ TokTy.malformed :=
            nextNonWS_not_malformed_of_txt _ (by rw [hp]; simp [rbrace])
          have happ2 := nextNonWS_append (nextNonWS st).2 ext hm2 hne
          rw [happ2]
          dsimp only []
          rw [if_pos hp, hv]
        · rw [if_neg hp] at h
          have hkey := readDict_success_key h
          have hm2 : (nextNonWS (nextNonWS st).2).1.ty ≠ TokTy.malformed := by
            rw [hkey]; decide
          have hr2 : (nextNonWS (nextNonWS st).2).2.rem ≠ [] :=
            suffix_ne_nil (readDict_consumes_first h) hne
          have happ2 := nextNonWS_append (nextNonWS st).2 ext hm2 hr2
          rw [happ2]
          dsimp only []
          rw [if_neg hp]
          exact ihd _ _ v st' ext h hne
      · rw [if_neg hb] at h
        by_cases hk : ((nextNonWS st).1.txt = lbrack)
        · rw [if_pos hk] at h
          have hm1 : (nextNonWS st).1.ty ≠ TokTy.malformed :=
            nextNonWS_not_malformed_of_txt st (by rw [hk]; simp [lbrack])
          have hr1 : (nextNonWS st).2.rem ≠ [] := suffix_ne_nil hfirst hne
          have happ1 := nextNonWS_append st ext hm1 hr1
          rw [happ1]
          dsimp only []
          rw [if_neg hb, if_pos hk]
          by_cases hp : ((nextNonWS (nextNonWS st).2).1.txt = rbrack)
          · rw [if_pos hp] at h
            obtain ⟨h1, h2⟩ := pair_eq (Option.some.inj h)
            subst h2
            have hv := Option.some.inj h1
            have hm2 : (nextNonWS (nextNonWS st).2).1.ty ≠ TokTy.malformed :=
              nextNonWS_not_malformed_of_txt _ (by rw [hp]; simp [rbrack])
            have happ2 := nextNonWS_append (nextNonWS st).2 ext hm2 hne
            rw [happ2]
            dsimp only []
            rw [if_pos hp, hv]
          · rw [if_neg hp] at h
            obtain ⟨hm2, hsuf2⟩ := readList_success_head h
            have hr2 : (nextNonWS (nextNonWS st).2).2.rem ≠ [] :=
              suffix_ne_nil hsuf2 hne
            have happ2 := nextNonWS_append (nextNonWS st).2 ext hm2 hr2
            rw [happ2]
            dsimp only []
            rw [if_neg hp]
            exact ihl _ _ _ v st' ext h hne
        · rw [if_neg hk] at h
          by_cases hm2 : ((nextNonWS st).1.ty = TokTy.malformed)
          · rw [if_pos hm2] at h
            obtain ⟨h1, _⟩ := pair_eq (Option.some.inj h)
            cases h1
          · rw [if_neg hm2] at h
            obtain ⟨h1, h2⟩ := pair_eq (Option.some.inj h)
            subst h2
            have hv := Option.some.inj h1
            have happ1 := nextNonWS_append st ext hm2 hne
            rw [happ1]
            dsimp only []
            rw [if_neg hb, if_neg hk, if_neg hm2, hv]
    · intro cur st v st' ext h hne
      have hfirst := readDict_consumes_first (f := m + 1) h
      have hkey := readDict_success_key h
      rw [readDict] at h ⊢
      rw [if_neg (not_not.mpr hkey)] at h
      by_cases hc : ((nextNonWS (nextNonWS st).2).1.txt = [':'])
      · rw [if_pos hc] at h
        split at h
        · cases h
        · rename_i st3 heq
          obtain ⟨h1, _⟩ := pair_eq (Option.some.inj h)
          cases h1
        · rename_i v2 st3 heq
          dsimp only [] at h
          have hm1 : (nextNonWS st).1.ty ≠ TokTy.malformed := by
            rw [hkey]; decide
          have hr1 : (nextNonWS st).2.rem ≠ [] := suffix_ne_nil hfirst hne
          have happ1 := nextNonWS_append st ext hm1 hr1
          have hm2 : (nextNonWS (nextNonWS st).2).1.ty ≠ TokTy.malformed :=
            nextNonWS_not_malformed_of_txt _ (by rw [hc]; simp)
          have hsuf3 : st3.rem <:+ (nextNonWS (nextNonWS st).2).2.rem :=
            (read_suffix m).1 _ _ _ heq
          by_cases hcm : ((nextNonWS st3).1.txt = rbrace)
          · rw [if_pos hcm] at h
            obtain ⟨h1, h2⟩ := pair_eq (Option.some.inj h)
            subst h2
            have hv := Option.some.inj h1
            have hr3 : st3.rem ≠ [] :=
              suffix_ne_nil (nextNonWS_rem_suffix st3) hne
            have hr2 : (nextNonWS (nextNonWS st).2).2.rem ≠ [] :=
              suffix_ne_nil hsuf3 hr3
            have happ2 := nextNonWS_append (nextNonWS st).2 ext hm2 hr2
            rw [happ1]
            dsimp only []
            rw [if_neg (not_not.mpr hkey), happ2]
            dsimp only []
            rw [if_pos hc]
            have happR := ihr _ v2 st3 ext heq hr3
            rw [happR]
            dsimp only []
            have hm3 : (nextNonWS st3).1.ty ≠ TokTy.malformed :=
              nextNonWS_not_malformed_of_txt _ (by rw [hcm]; simp [rbrace])
            have happ3 := nextNonWS_append st3 ext hm3 hne
            rw [happ3]
            dsimp only []
            rw [if_pos hcm, hv]
          · rw [if_neg hcm] at h
            by_cases hcm2 : ((nextNonWS st3).1.txt = [','])
            · rw [if_pos hcm2] at h
              have hloop := h
              have hsuf4 : st'.rem <:+ (nextNonWS st3).2.rem :=
                (read_suffix m).2.1 _ _ _ _ hloop
              have hr4 : (nextNonWS st3).2.rem ≠ [] := suffix_ne_nil hsuf4 hne
              have hr3 : st3.rem ≠ [] :=
                suffix_ne_nil (nextNonWS_rem_suffix st3) hr4
              have hr2 : (nextNonWS (nextNonWS st).2).2.rem ≠ [] :=
                suffix_ne_nil hsuf3 hr3
              have happ2 := nextNonWS_append (nextNonWS st).2 ext hm2 hr2
              rw [happ1]
              dsimp only []
              rw [if_neg (not_not.mpr hkey), happ2]
              dsimp only []
              rw [if_pos hc]
              have happR := ihr _ v2 st3 ext heq hr3
              rw [happR]
              dsimp only []
              have hm3 : (nextNonWS st3).1.ty ≠ TokTy.malformed :=
                nextNonWS_not_malformed_of_txt _ (by rw [hcm2]; simp)
              have happ3 := nextNonWS_append st3 ext hm3 hr4
              rw [happ3]
              dsimp only []
              rw [if_neg hcm, if_pos hcm2]
              exact ihd _ _ v st' ext hloop hne
            · rw [if_neg hcm2] at h
              obtain ⟨h1, _⟩ := pair_eq (Option.some.inj h)
              cases h1
      · rw [if_neg hc] at h
        obtain ⟨h1, _⟩ := pair_eq (Option.some.inj h)
        cases h1
    · intro cur i st v st' ext h hne
      rw [readList] at h ⊢
      split at h
      · cases h
      · rename_i st1 heq
        obtain ⟨h1, _⟩ := pair_eq (Option.some.inj h)
        cases h1
      · rename_i w st1 heq
        dsimp only [] at h
        by_cases hcm : ((nextNonWS st1).1.txt = rbrack)
        · rw [if_pos hcm] at h
          obtain ⟨h1, h2⟩ := pair_eq (Option.some.inj h)
          subst h2
          have hv := Option.some.inj h1
          have hr1 : st1.rem ≠ [] :=
            suffix_ne_nil (nextNonWS_rem_suffix st1) hne
          have happR := ihr st w st1 ext heq hr1
          rw [happR]
          dsimp only []
          have hm3 : (nextNonWS st1).1.ty ≠ TokTy.malformed :=
            nextNonWS_not_malformed_of_txt _ (by rw [hcm]; simp [rbrack])
          have happ3 := nextNonWS_append st1 ext hm3 hne
          rw [happ3]
          dsimp only []
          rw [if_pos hcm, hv]
        · rw [if_neg hcm] at h
          by_cases hcm2 : ((nextNonWS st1).1.txt = [','])
          · rw [if_pos hcm2] at h
            have hloop := h
            have hsuf2 : st'.rem <:+ (nextNonWS st1).2.rem :=
              (read_suffix m).2.2 _ _ _ _ _ hloop
            have hr2 : (nextNonWS st1).2.rem ≠ [] := suffix_ne_nil hsuf2 hne
            have hr1 : st1.rem ≠ [] :=
              suffix_ne_nil (nextNonWS_rem_suffix st1) hr2
            have happR := ihr st w st1 ext heq hr1
            rw [happR]
            dsimp only []
            have hm3 : (nextNonWS st1).1.ty ≠ TokTy.malformed :=
              nextNonWS_not_malformed_of_txt _ (by rw [hcm2]; simp)
            have happ3 := nextNonWS_append st1 ext hm3 hr2
            rw [happ3]
            dsimp only []
            rw [if_neg hcm, if_pos hcm2]
            exact ihl _ _ _ v st' ext hloop hne
          · rw [if_neg hcm2] at h
            obtain ⟨h1, _⟩ := pair_eq (Option.some.inj h)
            cases h1

/-! ## Budget monotonicity -/

theorem read_mono :
    ∀ f, ∀ f', f ≤ f' →
      (∀ st r, read f st = some r → read f' st = some r) ∧
      (∀ cur st r, readDict f cur st = some r → readDict f' cur st = some r) ∧
      (∀ cur i st r, readList f cur i st = some r →
        readList f' cur i st = some r) := by
  intro f
  induction f with
  | zero =>
    intro f' _
    refine ⟨?_, ?_, ?_⟩
    · intro st r h; rw [read] at h; cases h
    · intro cur st r h; rw [readDict] at h; cases h
    · intro cur i st r h; rw [readList] at h; cases h
  | succ m ih =>
    intro f' hle
    cases f' with
    | zero => omega
    | succ b =>
      obtain ⟨ihr, ihd, ihl⟩ := ih b (by omega)
      refine ⟨?_, ?_, ?_⟩
      · intro st r h
        rw [read] at h ⊢
        by_cases hb : ((nextNonWS st).1.txt = lbrace)
        · rw [if_pos hb] at h ⊢
          by_cases hp : ((nextNonWS (nextNonWS st).2).1.txt = rbrace)
          · rw [if_pos hp] at h ⊢; exact h
          · rw [if_neg hp] at h ⊢; exact ihd _ _ _ h
        · rw [if_neg hb] at h ⊢
          by_cases hk : ((nextNonWS st).1.txt = lbrack)
          · rw [if_pos hk] at h ⊢
            by_cases hp : ((nextNonWS (nextNonWS st).2).1.txt = rbrack)
            · rw [if_pos hp] at h ⊢; exact h
            · rw [if_neg hp] at h ⊢; exact ihl _ _ _ _ h
          · rw [if_neg hk] at h ⊢; exact h
      · intro cur st r h
        rw [readDict] at h ⊢
        by_cases hks : ((nextNonWS st).1.ty ≠ TokTy.string)
        · rw [if_pos hks] at h ⊢; exact h
        · rw [if_neg hks] at h ⊢
          by_cases hc : ((nextNonWS (nextNonWS st).2).1.txt = [':'])
          · rw [if_pos hc] at h ⊢
            split at h
            · cases h
            · rename_i st3 heq
              rw [ihr _ _ heq]
              exact h
            · rename_i v st3 heq
              dsimp only [] at h
              rw [ihr _ _ heq]
              dsimp only []
              by_cases hcm : ((nextNonWS st3).1.txt = rbrace)
              · rw [if_pos hcm] at h ⊢; exact h
              · rw [if_neg hcm] at h ⊢
                by_cases hcm2 : ((nextNonWS st3).1.txt = [','])
                · rw [if_pos hcm2] at h ⊢; exact ihd _ _ _ h
                · rw [if_neg hcm2] at h ⊢; exact h
          · rw [if_neg hc] at h ⊢; exact h
      · intro cur i st r h
        rw [readList] at h ⊢
        split at h
        · cases h
        · rename_i st1 heq
          rw [ihr _ _ heq]
          exact h
        · rename_i v st1 heq
          dsimp only [] at h
          rw [ihr _ _ heq]
          dsimp only []
          by_cases hcm : ((nextNonWS st1).1.txt = rbrack)
          · rw [if_pos hcm] at h ⊢; exact h
          · rw [if_neg hcm] at h ⊢
            by_cases hcm2 : ((nextNonWS st1).1.txt = [','])
            · rw [if_pos hcm2] at h ⊢; exact ihl _ _ _ _ h
            · rw [if_neg hcm2] at h ⊢; exact h

/-! ## Claim C10 -/

/-- Claim C10: the parser stops after one complete value and never
examines the remainder of the input range.  If `read` succeeds on an
input without consuming it entirely (`st'.rem ≠ []`, i.e. its leading
tokens form one complete value before the end of the range), then for any
text appended after that input, `read` succeeds with the identical tree,
identical position, and the appended text left unread — trailing garbage
is never an error. -/
theorem c10_trailing_text_ignored (s ext : List Char) (v : Val) (st' : PSt)
    (h : readFull s = some (some v, st')) (hne : st'.rem ≠ []) :
    readFull (s ++ ext) =
      some (some v, ⟨st'.rem ++ ext, st'.line, st'.pos, st'.err⟩) := by
  rw [readFull] at h
  have happ := (read_append_all (2 * s.length + 1)).1 (read0 s) v st' ext h hne
  rw [readFull]
  refine (read_mono (2 * s.length + 1) (2 * (s ++ ext).length + 1)
    (by rw [List.length_append]; omega)).1 _ _ ?_
  exact happ

/-- Witness for C10: `"[ ] "` parses to the empty array with the final
space unconsumed; appending two stray brackets and other garbage leaves
the result untouched. -/
theorem c10_trailing_text_ignored_witness :
    readFull ("[ ] ".toList ++ "]]@@".toList) =
      some (some Val.fresh.set_list,
        ⟨" ".toList ++ "]]@@".toList, 1, 4, []⟩) :=
  c10_trailing_text_ignored "[ ] ".toList "]]@@".toList Val.fresh.set_list
    ⟨" ".toList, 1, 4, []⟩ rfl (by simp)

/-! ## Order lemmas for std::map insertion -/

theorem keyLt_trans :
    ∀ a b c, keyLt a b = true → keyLt b c = true → keyLt a c = true := by
  intro a
  induction a with
  | nil =>
    intro b c hab hbc
    cases b with
    | nil => cases hab
    | cons b1 bs =>
      cases c with
      | nil => cases hbc
      | cons c1 cs => rfl
  | cons a1 as ih =>
    intro b c hab hbc
    cases b with
    | nil => cases hab
    | cons b1 bs =>
      cases c with
      | nil => cases hbc
      | cons c1 cs =>
        rw [keyLt] at hab hbc ⊢
        by_cases h1 : a1 < b1
        · rw [if_pos h1] at hab
          by_cases h2 : b1 < c1
          · rw [if_pos (lt_trans h1 h2)]
          · rw [if_neg h2] at hbc
            by_cases h3 : c1 < b1
            · rw [if_pos h3] at hbc; cases hbc
            · have : b1 = c1 := le_antisymm (not_lt.mp h3) (not_lt.mp h2)
              subst this
              rw [if_pos h1]
        · rw [if_neg h1] at hab
          by_cases h1' : b1 < a1
          · rw [if_pos h1'] at hab; cases hab
          · rw [if_neg h1'] at hab
            have hba : a1 = b1 := le_antisymm (not_lt.mp h1') (not_lt.mp h1)
            subst hba
            by_cases h2 : a1 < c1
            · rw [if_pos h2]
            · rw [if_neg h2] at hbc ⊢
              by_cases h3 : c1 < a1
              · rw [if_pos h3] at hbc; cases hbc
              · rw [if_neg h3] at hbc ⊢
                exact ih bs cs hab hbc

theorem keyLt_asymm {a b : List Char} (h : keyLt a b = true) :
    keyLt b a = false := by
  by_contra hne
  have h2 : keyLt b a = true := by simpa using hne
  have := keyLt_trans a b a h h2
  rw [keyLt_irrefl] at this
  cases this

theorem mapInsert_append_gt :
    ∀ (d : List (List Char × Val)) (k : List Char) (v : Val),
      (∀ p ∈ d, keyLt p.1 k = true) →
      mapInsert k v d = d ++ [(k, v)] := by
  intro d
  induction d with
  | nil => intro k v _; rfl
  | cons e r ih =>
    intro k v hall
    obtain ⟨k', v'⟩ := e
    have hk' : keyLt k' k = true := hall (k', v') (by simp)
    rw [mapInsert, if_neg (by simp [keyLt_asymm hk']), if_pos hk',
      ih k v (fun p hp => hall p (by simp [hp])), List.cons_append]

theorem sortedKeys_tail {e : List Char × Val} {r : List (List Char × Val)}
    (h : sortedKeys (e :: r) = true) : sortedKeys r = true := by
  obtain ⟨k, v⟩ := e
  cases r with
  | nil => rfl
  | cons e2 r2 =>
    obtain ⟨k2, v2⟩ := e2
    rw [sortedKeys, Bool.and_eq_true] at h
    exact h.2

theorem sorted_head_lt_all :
    ∀ (r : List (List Char × Val)) (k : List Char) (v : Val),
      sortedKeys ((k, v) :: r) = true →
      ∀ q ∈ r, keyLt k q.1 = true := by
  intro r
  induction r with
  | nil => intro k v _ q hq; cases hq
  | cons e2 r2 ih =>
    intro k v hs q hq
    obtain ⟨k2, v2⟩ := e2
    rw [sortedKeys, Bool.and_eq_true] at hs
    obtain ⟨hk12, hs2⟩ := hs
    cases hq with
    | head => exact hk12
    | tail _ hq2 =>
      exact keyLt_trans _ _ _ hk12 (ih k2 v2 hs2 q hq2)

theorem keySet_dictnode (acc : List (List Char × Val)) (ls : List Val)
    (il : Bool) (vv : List Char) (k : List Char) (c : Val) :
    (Val.mk acc true ls il vv).keySet k c =
      Val.mk (mapInsert k c acc) true ls il vv := rfl

theorem foldKS_sorted :
    ∀ (d : List (List Char × Val)) (acc : List (List Char × Val))
      (ls : List Val) (il : Bool) (vv : List Char),
      sortedKeys d = true →
      (∀ p ∈ acc, ∀ q ∈ d, keyLt p.1 q.1 = true) →
      foldKS (Val.mk acc true ls il vv) d =
        Val.mk (acc ++ cleanEntries d) true ls il vv := by
  intro d
  induction d with
  | nil => intro acc ls il vv _ _; simp [foldKS, cleanEntries]
  | cons e r ih =>
    intro acc ls il vv hs hlb
    obtain ⟨k, c⟩ := e
    rw [foldKS, keySet_dictnode,
      mapInsert_append_gt acc k (clean c)
        (fun p hp => hlb p hp (k, c) (by simp)),
      ih (acc ++ [(k, clean c)]) ls il vv (sortedKeys_tail hs) ?_,
      cleanEntries]
    · rw [List.append_assoc]
      rfl
    · intro p hp q hq
      rcases List.mem_append.mp hp with hpa | hpk
      · exact hlb p hpa q (by simp [hq])
      · have : p = (k, clean c) := by simpa using hpk
        subst this
        exact sorted_head_lt_all r k c hs q hq

theorem set_append_len :
    ∀ (l : List Val) (x c : Val), (l ++ [x]).set l.length c = l ++ [c] := by
  intro l
  induction l with
  | nil => intro x c; rfl
  | cons a as ih =>
    intro x c
    rw [List.cons_append, List.length_cons, List.set_cons_succ, ih,
      List.cons_append]

theorem idxSet_at_len (d : List (List Char × Val)) (id : Bool)
    (lst : List Val) (il : Bool) (v : List Char) (c : Val) :
    (Val.mk d id lst il v).idxSet lst.length c =
      Val.mk d id (lst ++ [c]) true v := by
  rw [show (Val.mk d id lst il v).idxSet lst.length c =
    Val.mk d id ((listExtend lst lst.length).set lst.length c) true v
    from rfl]
  rw [listExtend, show lst.length + 1 - lst.length = 1 by omega,
    List.replicate_one, set_append_len]

theorem foldLS_append :
    ∀ (es : List Val), es ≠ [] →
      ∀ (d : List (List Char × Val)) (id : Bool) (lst : List Val)
        (il : Bool) (v : List Char),
        foldLS (Val.mk d id lst il v) lst.length es =
          Val.mk d id (lst ++ cleanSeq es) true v := by
  intro es
  induction es with
  | nil => intro h; exact absurd rfl h
  | cons c r ih =>
    intro _ d id lst il v
    rw [foldLS, idxSet_at_len]
    cases r with
    | nil => rw [foldLS, cleanSeq, cleanSeq]
    | cons c2 r2 =>
      have hlen : (lst ++ [clean c]).length = lst.length + 1 := by
        simp
      rw [← hlen, ih (by simp) d id (lst ++ [clean c]) true v,
        List.append_assoc, cleanSeq]
      rfl

/-! ## Escaped keys tokenize and unescape cleanly -/

theorem escBody_rel : ∀ k, UnescRel (escBody k) k := by
  intro k
  induction k with
  | nil => exact UnescRel.nil
  | cons c r ih =>
    rw [escBody]
    by_cases hc : (c = '"' || c = '\\') = true
    · rw [if_pos hc]
      exact UnescRel.esc ih
    · rw [if_neg hc]
      refine UnescRel.lit ?_ ih
      intro he
      subst he
      simp at hc

theorem escape_getLast (k : List Char) :
    (escape k).getLast? = some '"' := by
  rw [escape]
  exact List.getLast?_concat _

theorem unescape_escape (k : List Char) : unescape (escape k) = some k := by
  rw [unescape]
  rw [if_neg (by rw [escape]; simp)]
  rw [if_neg (by
    rw [escape_getLast]
    rw [escape]
    simp)]
  rw [escape, List.cons_append]
  simp only [List.drop_one, List.tail_cons, List.dropLast_concat]
  exact unescLoop_false_of_rel (escBody_rel k)

theorem strScan_escBody (k : List Char) :
    strScanAux (escBody k ++ ['"']) false = some (escBody k ++ ['"'], []) := by
  induction k with
  | nil => rfl
  | cons c r ih =>
    rw [escBody]
    by_cases hc : (c = '"' || c = '\\') = true
    · rw [if_pos hc]
      have hc2 : (c = '\n' || c = '\x0d') = false := by
        rcases (by simpa using hc : c = '"' ∨ c = '\\') with rfl | rfl <;>
          decide
      have hform : (['\\', c] ++ escBody r) ++ ['"'] =
          '\\' :: c :: (escBody r ++ ['"']) := by
        simp
      rw [hform]
      rw [strScanAux, if_neg (by decide), if_neg (by decide), if_pos rfl,
        strScanAux, if_pos rfl, if_neg (by simp [hc2]), ih]
      rfl
    · rw [if_neg hc]
      have hq : ¬ c = '"' := by intro he; subst he; simp at hc
      have hb : ¬ c = '\\' := by intro he; subst he; simp at hc
      have hform : ([c] ++ escBody r) ++ ['"'] =
          c :: (escBody r ++ ['"']) := by
        simp
      rw [hform]
      rw [strScanAux, if_neg (by decide), if_neg hq, if_neg hb, ih]
      rfl

theorem escape_strMatch (k : List Char) :
    strMatch (escape k) = some (escape k, []) := by
  rw [escape, List.cons_append, strMatch, if_pos rfl, strScan_escBody]
  rfl

/-! ## Evaluating single tokens in context -/

theorem sym_facts {c : Char} (h : isSym c = true) :
    isWS c = false ∧ c ≠ '"' ∧ isWordChar c = false ∧ c ≠ '\n' := by
  rw [isSym] at h
  simp only [Bool.or_eq_true, decide_eq_true_eq] at h
  rcases h with ((((rfl | rfl) | rfl) | rfl) | rfl) | rfl <;>
    refine ⟨by decide, by decide, by decide, by decide⟩

theorem tokenAt_symbol {c : Char} (r : List Char) (hc : isSym c = true) :
    tokenAt (c :: r) = (.symbol, [c], r) := by
  obtain ⟨hws, hq, hwd, _⟩ := sym_facts hc
  have htw : (c :: r).takeWhile isWS = [] := by
    rw [List.takeWhile_cons, if_neg (by simp [hws])]
  have hsm : strMatch (c :: r) = none := by
    rw [strMatch, if_neg hq]
  have htw2 : (c :: r).takeWhile isWordChar = [] := by
    rw [List.takeWhile_cons, if_neg (by simp [hwd])]
  simp only [tokenAt, htw, ne_eq, not_true_eq_false, if_false, hsm, htw2]
  rw [if_pos hc]

theorem nextNonWS_symbol {c : Char} (r : List Char) (l p : Nat)
    (e : List Char) (hc : isSym c = true) :
    nextNonWS ⟨c :: r, l, p, e⟩ =
      (⟨.symbol, [c], l, p⟩, ⟨r, l, p + 1, e⟩) := by
  have hnext : next ⟨c :: r, l, p, e⟩ =
      (⟨.symbol, [c], l, p⟩, ⟨r, l, p + 1, e⟩) := by
    simp only [next, tokenAt_symbol r hc]
    rw [show advLP l p [c] = (l, p + 1) by
      rw [advLP, if_neg (sym_facts hc).2.2.2, advLP]]
  rw [nextNonWS, nextNonWSAux, hnext]
  dsimp only []
  rw [if_neg (by decide)]

theorem tokenAt_word {txt : List Char} (rest : List Char)
    (hall : txt.all isWordChar = true) (hne : txt ≠ [])
    (hrest : ∀ c r, rest = c :: r → isWordChar c = false) :
    tokenAt (txt ++ rest) = (.word, txt, rest) := by
  obtain ⟨a, as, rfl⟩ : ∃ a as, txt = a :: as := by
    cases txt with
    | nil => exact absurd rfl hne
    | cons a as => exact ⟨a, as, rfl⟩
  rw [List.all_cons, Bool.and_eq_true] at hall
  obtain ⟨ha, has⟩ := hall
  have htw : ((a :: as) ++ rest).takeWhile isWS = [] := by
    rw [List.cons_append, List.takeWhile_cons,
      if_neg (by simp [wordChar_not_ws ha])]
  have hsm : strMatch ((a :: as) ++ rest) = none := by
    rw [List.cons_append, strMatch, if_neg (wordChar_not_quote ha)]
  have hspan := takeWhile_append_of (p := isWordChar) (a :: as) rest
    (by rw [List.all_cons]; simp [ha, has]) hrest
  have hw2 : ((a :: as) ++ rest).takeWhile isWordChar ≠ [] := by
    rw [hspan.1]
    simp
  simp only [tokenAt, htw, ne_eq, not_true_eq_false, if_false, hsm, hw2,
    not_false_eq_true, if_true, hspan.1, hspan.2]
  rw [if_pos (by simp)]

theorem nextNonWS_word {txt : List Char} (rest : List Char) (l p : Nat)
    (e : List Char) (hall : txt.all isWordChar = true) (hne : txt ≠ [])
    (hrest : ∀ c r, rest = c :: r → isWordChar c = false) :
    nextNonWS ⟨txt ++ rest, l, p, e⟩ =
      (⟨.word, txt, l, p⟩,
        ⟨rest, (advLP l p txt).1, (advLP l p txt).2, e⟩) := by
  have hnext : next ⟨txt ++ rest, l, p, e⟩ =
      (⟨.word, txt, l, p⟩,
        ⟨rest, (advLP l p txt).1, (advLP l p txt).2, e⟩) := by
    simp only [next, tokenAt_word rest hall hne hrest]
  rw [nextNonWS, nextNonWSAux, hnext]
  dsimp only []
  rw [if_neg (by decide)]

theorem strMatch_shape {stxt rest2 : List Char}
    (h : strMatch stxt = some (stxt, rest2)) : ∃ cs, stxt = '"' :: cs := by
  cases stxt with
  | nil => cases h
  | cons c cs =>
    rw [strMatch] at h
    by_cases hq : c = '"'
    · exact ⟨cs, by rw [hq]⟩
    · rw [if_neg hq] at h; cases h

theorem tokenAt_string {stxt : List Char} (rest : List Char)
    (hm : strMatch stxt = some (stxt, [])) :
    tokenAt (stxt ++ rest) = (.string, stxt, rest) := by
  obtain ⟨cs, rfl⟩ := strMatch_shape hm
  have hm2 : strMatch (('"' :: cs) ++ rest) = some ('"' :: cs, rest) := by
    have := @strMatch_append_ext _ _ _ rest hm
    simpa using this
  have htw : (('"' :: cs) ++ rest).takeWhile isWS = [] := by
    rw [List.cons_append, List.takeWhile_cons, if_neg (by decide)]
  simp only [tokenAt, htw, ne_eq, not_true_eq_false, if_false, hm2]

theorem nextNonWS_string {stxt : List Char} (rest : List Char) (l p : Nat)
    (e : List Char) (hm : strMatch stxt = some (stxt, [])) :
    nextNonWS ⟨stxt ++ rest, l, p, e⟩ =
      (⟨.string, stxt, l, p⟩,
        ⟨rest, (advLP l p stxt).1, (advLP l p stxt).2, e⟩) := by
  have hnext : next ⟨stxt ++ rest, l, p, e⟩ =
      (⟨.string, stxt, l, p⟩,
        ⟨rest, (advLP l p stxt).1, (advLP l p stxt).2, e⟩) := by
    simp only [next, tokenAt_string rest hm]
  rw [nextNonWS, nextNonWSAux, hnext]
  dsimp only []
  rw [if_neg (by decide)]

theorem tokenAt_wsrun {w : List Char} (rest : List Char) (hne : w ≠ [])
    (hall : w.all isWS = true)
    (hrest : ∀ c r, rest = c :: r → isWS c = false) :
    tokenAt (w ++ rest) = (.whitespace, w, rest) := by
  have hspan := takeWhile_append_of (p := isWS) w rest hall hrest
  have hw : (w ++ rest).takeWhile isWS ≠ [] := by
    rw [hspan.1]
    exact hne
  simp only [tokenAt, ne_eq, hw, not_false_eq_true, if_true, hspan.1,
    hspan.2]
  rw [if_pos hne]

theorem nextNonWS_ws_skip {w : List Char} (s : List Char) (l p : Nat)
    (e : List Char) (hall : w.all isWS = true)
    (hs : ∀ c r, s = c :: r → isWS c = false) :
    nextNonWS ⟨w ++ s, l, p, e⟩ =
      nextNonWS ⟨s, (advLP l p w).1, (advLP l p w).2, e⟩ := by
  cases w with
  | nil => rw [advLP]; rfl
  | cons wc wr =>
    have hnext : next ⟨(wc :: wr) ++ s, l, p, e⟩ =
        (⟨.whitespace, wc :: wr, l, p⟩,
          ⟨s, (advLP l p (wc :: wr)).1, (advLP l p (wc :: wr)).2, e⟩) := by
      simp only [next, tokenAt_wsrun s (by simp) hall hs]
    rw [nextNonWS, nextNonWSAux, hnext]
    dsimp only []
    rw [if_pos rfl]
    rw [nextNonWS]
    apply nextNonWSAux_irrel
    · have : ((wc :: wr) ++ s : List Char).length = wr.length + 1 + s.length := by
        simp [List.length_append]
        omega
      simp only [this]
      omega
    · omega

theorem read_skip_ws (f : Nat) {w : List Char} (s : List Char) (l p : Nat)
    (e : List Char) (hall : w.all isWS = true)
    (hs : ∀ c r, s = c :: r → isWS c = false) :
    read f ⟨w ++ s, l, p, e⟩ =
      read f ⟨s, (advLP l p w).1, (advLP l p w).2, e⟩ := by
  cases f with
  | zero => rw [read, read]
  | succ m =>
    rw [read, read, nextNonWS_ws_skip s l p e hall hs]

/-! ## Shape facts about written text -/

theorem cost_pos : ∀ t : Val, 1 ≤ cost t := by
  intro t
  obtain ⟨d, id, l, il, v⟩ := t
  rw [cost]
  by_cases hd : id = true
  · rw [if_pos hd]; omega
  · rw [if_neg hd]
    by_cases hl : il = true
    · rw [if_pos hl]; omega
    · rw [if_neg hl]

theorem goodTok_cases {v : List Char} (h : goodTok v = true) :
    (v ≠ [] ∧ v.all isWordChar = true) ∨ strMatch v = some (v, []) := by
  rw [goodTok] at h
  rcases Bool.or_eq_true _ _ ▸ h with h1 | h2
  · rw [Bool.and_eq_true] at h1
    left
    refine ⟨?_, h1.2⟩
    intro he
    subst he
    simp at h1
  · right
    cases hm : strMatch v with
    | none => rw [hm] at h2; cases h2
    | some p =>
      obtain ⟨p1, p2⟩ := p
      rw [hm] at h2
      have hp2 : p2 = [] := by simpa using h2
      subst hp2
      have hp1 : p1 = v := by
        have := strMatch_append (s := v) (t := p1) (r := []) hm
        rw [List.append_nil] at this
        exact this
      subst hp1
      rfl

theorem write_head_ws {t : Val} (ind : List Char) (hg : goodVal t = true) :
    ∃ c0 r0, write t ind = c0 :: r0 ∧ isWS c0 = false := by
  obtain ⟨d, id, l, il, v⟩ := t
  rw [write]
  by_cases hd : id = true
  · rw [if_pos hd]
    by_cases hde : d.isEmpty = true
    · rw [if_pos hde]
      exact ⟨'{', ['}'], rfl, by decide⟩
    · rw [if_neg hde]
      exact ⟨'{', _, rfl, by decide⟩
  · rw [if_neg hd]
    by_cases hl : il = true
    · rw [if_pos hl]
      by_cases hle : l.isEmpty = true
      · rw [if_pos hle]
        exact ⟨'[', [']'], rfl, by decide⟩
      · rw [if_neg hle]
        exact ⟨'[', _, rfl, by decide⟩
    · rw [if_neg hl]
      rw [goodVal, if_neg hd, if_neg hl] at hg
      rcases goodTok_cases hg with ⟨hne, hall⟩ | hm
      · obtain ⟨a, as, rfl⟩ : ∃ a as, v = a :: as := by
          cases v with
          | nil => exact absurd rfl hne
          | cons a as => exact ⟨a, as, rfl⟩
        rw [List.all_cons, Bool.and_eq_true] at hall
        exact ⟨a, as, rfl, wordChar_not_ws hall.1⟩
      · obtain ⟨cs, rfl⟩ := strMatch_shape hm
        exact ⟨'"', cs, rfl, by decide⟩

theorem wde_true_eq (x : List Char × Val) (xs : List (List Char × Val))
    (ip : List Char) :
    writeDictEntries (x :: xs) ip true =
      ',' :: writeDictEntries (x :: xs) ip false := by
  obtain ⟨k, c⟩ := x
  rw [writeDictEntries, writeDictEntries]
  rfl

theorem wle_true_eq (x : Val) (xs : List Val) (ip : List Char) :
    writeListEntries (x :: xs) ip true =
      ',' :: writeListEntries (x :: xs) ip false := by
  rw [writeListEntries, writeListEntries]
  rfl

theorem write_first_tok (c : Val) (ind X : List Char) (l p : Nat)
    (e : List Char) (hg : goodVal c = true)
    (hX : ∀ a r, X = a :: r → isWordChar a = false) :
    ∃ tok st2, nextNonWS ⟨write c ind ++ X, l, p, e⟩ = (tok, st2) ∧
      tok.txt ≠ rbrack ∧ tok.txt ≠ rbrace := by
  obtain ⟨d, id, lst, il, v⟩ := c
  rw [write]
  by_cases hd : id = true
  · rw [if_pos hd]
    by_cases hde : d.isEmpty = true
    · rw [if_pos hde]
      refine ⟨_, _, nextNonWS_symbol ('}' :: X) l p e (by decide), ?_, ?_⟩
        <;> simp [rbrack, rbrace]
    · rw [if_neg hde]
      refine ⟨_, _, nextNonWS_symbol _ l p e (by decide), ?_, ?_⟩
        <;> simp [rbrack, rbrace]
  · rw [if_neg hd]
    by_cases hl : il = true
    · rw [if_pos hl]
      by_cases hle : lst.isEmpty = true
      · rw [if_pos hle]
        refine ⟨_, _, nextNonWS_symbol (']' :: X) l p e (by decide), ?_, ?_⟩
          <;> simp [rbrack, rbrace]
      · rw [if_neg hle]
        refine ⟨_, _, nextNonWS_symbol _ l p e (by decide), ?_, ?_⟩
          <;> simp [rbrack, rbrace]
    · rw [if_neg hl]
      rw [goodVal, if_neg hd, if_neg hl] at hg
      rcases goodTok_cases hg with ⟨hne, hall⟩ | hm
      · refine ⟨_, _, nextNonWS_word X l p e hall hne hX, ?_, ?_⟩
        · intro he
          have he2 : v = rbrack := he
          have : isWordChar ']' = true :=
            (List.all_eq_true.mp hall) ']' (by rw [he2]; simp [rbrack])
          exact absurd this (by decide)
        · intro he
          have he2 : v = rbrace := he
          have : isWordChar '}' = true :=
            (List.all_eq_true.mp hall) '}' (by rw [he2]; simp [rbrace])
          exact absurd this (by decide)
      · obtain ⟨cs, hv⟩ := strMatch_shape hm
        refine ⟨_, _, nextNonWS_string X l p e hm, ?_, ?_⟩
        · rw [hv]
          intro he
          obtain ⟨h1, _⟩ := List.cons.inj he
          cases h1
        · rw [hv]
          intro he
          obtain ⟨h1, _⟩ := List.cons.inj he
          cases h1

theorem escape_ne_rbrace (k : List Char) : escape k ≠ rbrace := by
  rw [escape]
  intro he
  obtain ⟨h1, _⟩ := List.cons.inj he
  cases h1

/-! ## Whitespace shape of the written indentation -/

theorem ip_all_ws (ind : List Char) (hind : ind.all isWS = true) :
    (ind ++ threeSp).all isWS = true := by
  rw [List.all_append, hind]
  rfl

theorem nl_all_ws (w : List Char) (hw : w.all isWS = true) :
    ('\n' :: w).all isWS = true := by
  rw [List.all_cons, hw]
  rfl

theorem head_pred_append {A : List Char} {c0 : Char} {r0 : List Char}
    (hA : A = c0 :: r0) (P : Char → Bool) (h : P c0 = false) :
    ∀ (B : List Char) (c : Char) (r : List Char),
      A ++ B = c :: r → P c = false := by
  intro B c r hcr
  rw [hA, List.cons_append] at hcr
  obtain ⟨h1, _⟩ := List.cons.inj hcr
  rw [← h1]
  exact h

theorem escape_head_not_ws (k B : List Char) :
    ∀ c r, escape k ++ B = c :: r → isWS c = false := by
  intro c r hcr
  rw [escape, List.cons_append] at hcr
  obtain ⟨h1, _⟩ := List.cons.inj hcr
  rw [← h1]
  decide

theorem wde_tail_not_word (dr : List (List Char × Val)) (ip Z : List Char) :
    ∀ c r, writeDictEntries dr ip true ++ '\n' :: Z = c :: r →
      isWordChar c = false := by
  intro c r hcr
  cases dr with
  | nil =>
    rw [writeDictEntries, List.nil_append] at hcr
    obtain ⟨h1, _⟩ := List.cons.inj hcr
    rw [← h1]
    decide
  | cons x xs =>
    rw [wde_true_eq, List.cons_append] at hcr
    obtain ⟨h1, _⟩ := List.cons.inj hcr
    rw [← h1]
    decide

theorem wle_tail_not_word (er : List Val) (ip Z : List Char) :
    ∀ c r, writeListEntries er ip true ++ '\n' :: Z = c :: r →
      isWordChar c = false := by
  intro c r hcr
  cases er with
  | nil =>
    rw [writeListEntries, List.nil_append] at hcr
    obtain ⟨h1, _⟩ := List.cons.inj hcr
    rw [← h1]
    decide
  | cons x xs =>
    rw [wle_true_eq, List.cons_append] at hcr
    obtain ⟨h1, _⟩ := List.cons.inj hcr
    rw [← h1]
    decide

/-! ## The first token of a written entry list -/

theorem wde_first (k0 : List Char) (c0 : Val) (dr : List (List Char × Val))
    (ip Z : List Char) :
    writeDictEntries ((k0, c0) :: dr) ip false ++ '\n' :: Z =
      ('\n' :: ip) ++
        (escape k0 ++ ':' :: ' ' ::
          (write c0 ip ++ (writeDictEntries dr ip true ++ '\n' :: Z))) := by
  rw [writeDictEntries]
  simp

theorem wle_first (c0 : Val) (er : List Val) (ip Z : List Char) :
    writeListEntries (c0 :: er) ip false ++ '\n' :: Z =
      ('\n' :: ip) ++
        (write c0 ip ++ (writeListEntries er ip true ++ '\n' :: Z)) := by
  rw [writeListEntries]
  simp

theorem wde_first_tok (k0 : List Char) (c0 : Val)
    (dr : List (List Char × Val)) (ind Z : List Char) (l p : Nat)
    (e : List Char) (hind : ind.all isWS = true) :
    ∃ l1 p1 l2 p2,
      nextNonWS ⟨writeDictEntries ((k0, c0) :: dr) (ind ++ threeSp) false ++
          '\n' :: Z, l, p, e⟩ =
        (⟨TokTy.string, escape k0, l1, p1⟩,
          ⟨':' :: ' ' :: (write c0 (ind ++ threeSp) ++
              (writeDictEntries dr (ind ++ threeSp) true ++ '\n' :: Z)),
            l2, p2, e⟩) := by
  rw [wde_first]
  rw [@nextNonWS_ws_skip ('\n' :: (ind ++ threeSp)) _ l p e
    (nl_all_ws _ (ip_all_ws ind hind)) (escape_head_not_ws k0 _)]
  rw [nextNonWS_string (':' :: ' ' :: (write c0 (ind ++ threeSp) ++
      (writeDictEntries dr (ind ++ threeSp) true ++ '\n' :: Z))) _ _ e
    (escape_strMatch k0)]
  exact ⟨_, _, _, _, rfl⟩

theorem wle_first_tok (c0 : Val) (er : List Val) (ind Z : List Char)
    (l p : Nat) (e : List Char) (hg0 : goodVal c0 = true)
    (hind : ind.all isWS = true) :
    ∃ tok st2,
      nextNonWS ⟨writeListEntries (c0 :: er) (ind ++ threeSp) false ++
          '\n' :: Z, l, p, e⟩ = (tok, st2) ∧
        tok.txt ≠ rbrack ∧ tok.txt ≠ rbrace := by
  rw [wle_first]
  obtain ⟨ch, rh, hwh, hws⟩ := write_head_ws (ind ++ threeSp) hg0
  rw [@nextNonWS_ws_skip ('\n' :: (ind ++ threeSp)) _ l p e
    (nl_all_ws _ (ip_all_ws ind hind)) (head_pred_append hwh isWS hws _)]
  exact write_first_tok c0 (ind ++ threeSp) _ _ _ e hg0
    (wle_tail_not_word er (ind ++ threeSp) Z)

theorem scalar_token_eval (v X : List Char) (l p : Nat) (e : List Char)
    (hg : goodTok v = true)
    (hX : ∀ c r, X = c :: r → isWordChar c = false) :
    ∃ ty l2 p2,
      nextNonWS ⟨v ++ X, l, p, e⟩ = (⟨ty, v, l, p⟩, ⟨X, l2, p2, e⟩) ∧
        ty ≠ TokTy.malformed ∧ v ≠ lbrace ∧ v ≠ lbrack := by
  rcases goodTok_cases hg with ⟨hne, hall⟩ | hm
  · refine ⟨TokTy.word, _, _, nextNonWS_word X l p e hall hne hX,
      by decide, ?_, ?_⟩
    · intro he
      have : isWordChar '{' = true :=
        (List.all_eq_true.mp hall) '{' (by rw [he]; simp [lbrace])
      exact absurd this (by decide)
    · intro he
      have : isWordChar '[' = true :=
        (List.all_eq_true.mp hall) '[' (by rw [he]; simp [lbrack])
      exact absurd this (by decide)
  · obtain ⟨cs, hv⟩ := strMatch_shape hm
    refine ⟨TokTy.string, _, _, nextNonWS_string X l p e hm,
      by decide, ?_, ?_⟩
    · rw [hv]
      intro he
      obtain ⟨h1, _⟩ := List.cons.inj he
      cases h1
    · rw [hv]
      intro he
      obtain ⟨h1, _⟩ := List.cons.inj he
      cases h1

/-! ## The writer's output parses back to the cleaned tree -/

theorem read_write :
    ∀ f : Nat,
      (∀ t ind rest l p e, goodVal t = true → cost t ≤ f →
        ind.all isWS = true →
        (∀ c r, rest = c :: r → isWordChar c = false) →
        ∃ l2 p2, read f ⟨write t ind ++ rest, l, p, e⟩ =
          some (some (clean t), ⟨rest, l2, p2, e⟩)) ∧
      (∀ entries cur ind rest l p e, entries ≠ [] →
        goodEntries entries = true → costEntries entries + 1 ≤ f →
        ind.all isWS = true →
        ∃ l2 p2, readDict f cur
            ⟨writeDictEntries entries (ind ++ threeSp) false ++
              '\n' :: (ind ++ '}' :: rest), l, p, e⟩ =
          some (some (foldKS cur entries), ⟨rest, l2, p2, e⟩)) ∧
      (∀ elems cur i ind rest l p e, elems ≠ [] →
        goodSeq elems = true → costSeq elems + 1 ≤ f →
        ind.all isWS = true →
        ∃ l2 p2, readList f cur i
            ⟨writeListEntries elems (ind ++ threeSp) false ++
              '\n' :: (ind ++ ']' :: rest), l, p, e⟩ =
          some (some (foldLS cur i elems), ⟨rest, l2, p2, e⟩)) := by
  intro f
  induction f with
  | zero =>
    refine ⟨?_, ?_, ?_⟩
    · intro t ind rest l p e _ hc _ _
      have := cost_pos t
      omega
    · intro entries cur ind rest l p e _ _ hfc _
      omega
    · intro elems cur i ind rest l p e _ _ hfc _
      omega
  | succ m ih =>
    obtain ⟨ihr, ihd, ihl⟩ := ih
    refine ⟨?_, ?_, ?_⟩
    · -- a whole value
      intro t ind rest l p e hg hc hind hrest
      obtain ⟨d, id, lst, il, v⟩ := t
      by_cases hd : id = true
      · -- object
        rw [goodVal, if_pos hd, Bool.and_eq_true] at hg
        obtain ⟨hsort, hents⟩ := hg
        rw [cost, if_pos hd] at hc
        cases d with
        | nil =>
          refine ⟨l, p + 2, ?_⟩
          rw [show write (Val.mk [] id lst il v) ind ++ rest =
              '{' :: '}' :: rest by rw [write, if_pos hd]; rfl]
          rw [read, @nextNonWS_symbol '{' ('}' :: rest) l p e (by decide)]
          dsimp only []
          rw [if_pos (show (['{'] : List Char) = lbrace from rfl),
            @nextNonWS_symbol '}' rest l (p + 1) e (by decide)]
          dsimp only []
          rw [if_pos (show (['}'] : List Char) = rbrace from rfl), clean,
            if_pos hd]
          rfl
        | cons e0 dr =>
          obtain ⟨k0, c0⟩ := e0
          have hw : write (Val.mk ((k0, c0) :: dr) id lst il v) ind ++ rest =
              '{' :: (writeDictEntries ((k0, c0) :: dr) (ind ++ threeSp)
                false ++ '\n' :: (ind ++ '}' :: rest)) := by
            rw [write, if_pos hd, if_neg (by simp)]
            simp
          obtain ⟨l1, p1, l2, p2, hkey⟩ :=
            wde_first_tok k0 c0 dr ind (ind ++ '}' :: rest) l (p + 1) e hind
          obtain ⟨l5, p5, hloop⟩ := ihd ((k0, c0) :: dr)
            (Val.fresh.set_dict) ind rest l (p + 1) e (by simp) hents
            (by omega) hind
          refine ⟨l5, p5, ?_⟩
          rw [hw, read]
          rw [@nextNonWS_symbol '{'
            (writeDictEntries ((k0, c0) :: dr) (ind ++ threeSp) false ++
              '\n' :: (ind ++ '}' :: rest)) l p e (by decide)]
          dsimp only []
          rw [if_pos (show (['{'] : List Char) = lbrace from rfl), hkey]
          dsimp only []
          rw [if_neg (escape_ne_rbrace k0), hloop]
          have hfold : foldKS Val.fresh.set_dict ((k0, c0) :: dr) =
              clean (Val.mk ((k0, c0) :: dr) id lst il v) := by
            rw [show Val.fresh.set_dict = Val.mk [] true [] false [] from rfl,
              foldKS_sorted ((k0, c0) :: dr) [] [] false [] hsort
                (by intro q hq; cases hq),
              clean, if_pos hd, List.nil_append]
          rw [hfold]
      · rw [goodVal, if_neg hd] at hg
        rw [cost, if_neg hd] at hc
        by_cases hl : il = true
        · -- array
          rw [if_pos hl] at hg hc
          cases lst with
          | nil =>
            refine ⟨l, p + 2, ?_⟩
            rw [show write (Val.mk d id [] il v) ind ++ rest =
                '[' :: ']' :: rest by rw [write, if_neg hd, if_pos hl]; rfl]
            rw [read, @nextNonWS_symbol '[' (']' :: rest) l p e (by decide)]
            dsimp only []
            rw [if_neg (by decide),
              if_pos (show (['['] : List Char) = lbrack from rfl),
              @nextNonWS_symbol ']' rest l (p + 1) e (by decide)]
            dsimp only []
            rw [if_pos (show ([']'] : List Char) = rbrack from rfl), clean,
              if_neg hd, if_pos hl]
            rfl
          | cons c0 er =>
            have hg2 := hg
            rw [goodSeq, Bool.and_eq_true] at hg2
            obtain ⟨hg0, hgr⟩ := hg2
            have hw : write (Val.mk d id (c0 :: er) il v) ind ++ rest =
                '[' :: (writeListEntries (c0 :: er) (ind ++ threeSp)
                  false ++ '\n' :: (ind ++ ']' :: rest)) := by
              rw [write, if_neg hd, if_pos hl, if_neg (by simp)]
              simp
            obtain ⟨tok2, st2, htok2, hnrb, _⟩ :=
              wle_first_tok c0 er ind (ind ++ ']' :: rest) l (p + 1) e
                hg0 hind
            obtain ⟨l5, p5, hloop⟩ := ihl (c0 :: er) (Val.fresh.set_list) 0
              ind rest l (p + 1) e (by simp) hg (by omega) hind
            refine ⟨l5, p5, ?_⟩
            rw [hw, read]
            rw [@nextNonWS_symbol '['
              (writeListEntries (c0 :: er) (ind ++ threeSp) false ++
                '\n' :: (ind ++ ']' :: rest)) l p e (by decide)]
            dsimp only []
            rw [if_neg (by decide),
              if_pos (show (['['] : List Char) = lbrack from rfl), htok2]
            dsimp only []
            rw [if_neg hnrb, hloop]
            have h0 := foldLS_append (c0 :: er) (by simp) [] false [] true []
            simp only [List.length_nil, List.nil_append] at h0
            have hfold : foldLS Val.fresh.set_list 0 (c0 :: er) =
                clean (Val.mk d id (c0 :: er) il v) := by
              rw [show Val.fresh.set_list = Val.mk [] false [] true []
                from rfl, h0, clean, if_neg hd, if_pos hl]
            rw [hfold]
        · -- scalar
          rw [if_neg hl] at hg hc
          obtain ⟨ty, l2, p2, htok, hmal, hbrace, hbrack⟩ :=
            scalar_token_eval v rest l p e hg hrest
          refine ⟨l2, p2, ?_⟩
          rw [show write (Val.mk d id lst il v) ind ++ rest = v ++ rest by
            rw [write, if_neg hd, if_neg hl]]
          rw [read, htok]
          dsimp only []
          rw [if_neg hbrace, if_neg hbrack, if_neg hmal, clean,
            if_neg hd, if_neg hl]
    · -- the object entry loop
      intro entries cur ind rest l p e hne hge hfc hind
      cases entries with
      | nil => exact absurd rfl hne
      | cons e0 dr =>
        obtain ⟨k0, c0⟩ := e0
        have hge2 := hge
        rw [goodEntries, Bool.and_eq_true] at hge2
        obtain ⟨hg0, hgr⟩ := hge2
        rw [costEntries] at hfc
        obtain ⟨l1, p1, l2, p2, hkey⟩ :=
          wde_first_tok k0 c0 dr ind (ind ++ '}' :: rest) l p e hind
        obtain ⟨ch, rh, hwh, hws⟩ := write_head_ws (ind ++ threeSp) hg0
        obtain ⟨l3, p3, hchild⟩ := ihr c0 (ind ++ threeSp)
          (writeDictEntries dr (ind ++ threeSp) true ++
            '\n' :: (ind ++ '}' :: rest))
          (advLP l2 (p2 + 1) [' ']).1 (advLP l2 (p2 + 1) [' ']).2 e
          hg0 (by omega) (ip_all_ws ind hind)
          (wde_tail_not_word dr (ind ++ threeSp) (ind ++ '}' :: rest))
        cases dr with
        | nil =>
          refine ⟨(advLP l3 p3 ('\n' :: ind)).1,
            (advLP l3 p3 ('\n' :: ind)).2 + 1, ?_⟩
          rw [readDict, hkey]
          dsimp only []
          rw [if_neg (by simp)]
          rw [@nextNonWS_symbol ':' (' ' :: (write c0 (ind ++ threeSp) ++
            (writeDictEntries [] (ind ++ threeSp) true ++
              '\n' :: (ind ++ '}' :: rest)))) l2 p2 e (by decide)]
          dsimp only []
          rw [if_pos rfl]
          rw [show (' ' :: (write c0 (ind ++ threeSp) ++
              (writeDictEntries [] (ind ++ threeSp) true ++
                '\n' :: (ind ++ '}' :: rest))) : List Char) =
            [' '] ++ (write c0 (ind ++ threeSp) ++
              (writeDictEntries [] (ind ++ threeSp) true ++
                '\n' :: (ind ++ '}' :: rest))) from rfl]
          rw [@read_skip_ws m [' '] _ l2 (p2 + 1) e (by decide)
            (head_pred_append hwh isWS hws _)]
          rw [hchild]
          dsimp only []
          rw [unescape_escape]
          simp only [Option.getD_some]
          rw [show writeDictEntries ([] : List (List Char × Val))
              (ind ++ threeSp) true = ([] : List Char) from rfl,
            List.nil_append]
          rw [show ('\n' :: (ind ++ '}' :: rest) : List Char) =
            ('\n' :: ind) ++ ('}' :: rest) by simp]
          rw [@nextNonWS_ws_skip ('\n' :: ind) ('}' :: rest) l3 p3 e
            (nl_all_ws ind hind)
            (by
              intro c r hcr
              obtain ⟨h1, _⟩ := List.cons.inj hcr
              rw [← h1]
              decide)]
          rw [@nextNonWS_symbol '}' rest _ _ e (by decide)]
          dsimp only []
          rw [if_pos (show (['}'] : List Char) = rbrace from rfl)]
          rfl
        | cons e1 dr2 =>
          obtain ⟨l5, p5, hloop⟩ := ihd (e1 :: dr2)
            (cur.keySet k0 (clean c0)) ind rest l3 (p3 + 1) e
            (by simp) hgr (by omega) hind
          refine ⟨l5, p5, ?_⟩
          rw [readDict, hkey]
          dsimp only []
          rw [if_neg (by simp)]
          rw [@nextNonWS_symbol ':' (' ' :: (write c0 (ind ++ threeSp) ++
            (writeDictEntries (e1 :: dr2) (ind ++ threeSp) true ++
              '\n' :: (ind ++ '}' :: rest)))) l2 p2 e (by decide)]
          dsimp only []
          rw [if_pos rfl]
          rw [show (' ' :: (write c0 (ind ++ threeSp) ++
              (writeDictEntries (e1 :: dr2) (ind ++ threeSp) true ++
                '\n' :: (ind ++ '}' :: rest))) : List Char) =
            [' '] ++ (write c0 (ind ++ threeSp) ++
              (writeDictEntries (e1 :: dr2) (ind ++ threeSp) true ++
                '\n' :: (ind ++ '}' :: rest))) from rfl]
          rw [@read_skip_ws m [' '] _ l2 (p2 + 1) e (by decide)
            (head_pred_append hwh isWS hws _)]
          rw [hchild]
          dsimp only []
          rw [unescape_escape]
          simp only [Option.getD_some]
          rw [wde_true_eq, List.cons_append]
          rw [@nextNonWS_symbol ',' _ l3 p3 e (by decide)]
          dsimp only []
          rw [if_neg (by decide), if_pos rfl, hloop]
          rfl
    · -- the array element loop
      intro elems cur i ind rest l p e hne hge hfc hind
      cases elems with
      | nil => exact absurd rfl hne
      | cons c0 er =>
        have hge2 := hge
        rw [goodSeq, Bool.and_eq_true] at hge2
        obtain ⟨hg0, hgr⟩ := hge2
        rw [costSeq] at hfc
        obtain ⟨ch, rh, hwh, hws⟩ := write_head_ws (ind ++ threeSp) hg0
        obtain ⟨l3, p3, hchild⟩ := ihr c0 (ind ++ threeSp)
          (writeListEntries er (ind ++ threeSp) true ++
            '\n' :: (ind ++ ']' :: rest))
          (advLP l p ('\n' :: (ind ++ threeSp))).1
          (advLP l p ('\n' :: (ind ++ threeSp))).2 e hg0 (by omega)
          (ip_all_ws ind hind)
          (wle_tail_not_word er (ind ++ threeSp) (ind ++ ']' :: rest))
        cases er with
        | nil =>
          refine ⟨(advLP l3 p3 ('\n' :: ind)).1,
            (advLP l3 p3 ('\n' :: ind)).2 + 1, ?_⟩
          rw [readList,
            wle_first c0 [] (ind ++ threeSp) (ind ++ ']' :: rest)]
          rw [@read_skip_ws m ('\n' :: (ind ++ threeSp)) _ l p e
            (nl_all_ws _ (ip_all_ws ind hind))
            (head_pred_append hwh isWS hws _)]
          rw [hchild]
          dsimp only []
          rw [show writeListEntries ([] : List Val) (ind ++ threeSp) true =
              ([] : List Char) from rfl,
            List.nil_append]
          rw [show ('\n' :: (ind ++ ']' :: rest) : List Char) =
            ('\n' :: ind) ++ (']' :: rest) by simp]
          rw [@nextNonWS_ws_skip ('\n' :: ind) (']' :: rest) l3 p3 e
            (nl_all_ws ind hind)
            (by
              intro c r hcr
              obtain ⟨h1, _⟩ := List.cons.inj hcr
              rw [← h1]
              decide)]
          rw [@nextNonWS_symbol ']' rest _ _ e (by decide)]
          dsimp only []
          rw [if_pos (show ([']'] : List Char) = rbrack from rfl)]
          rfl
        | cons c1 er2 =>
          obtain ⟨l5, p5, hloop⟩ := ihl (c1 :: er2)
            (cur.idxSet i (clean c0)) (i + 1) ind rest l3 (p3 + 1) e
            (by simp) hgr (by omega) hind
          refine ⟨l5, p5, ?_⟩
          rw [readList,
            wle_first c0 (c1 :: er2) (ind ++ threeSp) (ind ++ ']' :: rest)]
          rw [@read_skip_ws m ('\n' :: (ind ++ threeSp)) _ l p e
            (nl_all_ws _ (ip_all_ws ind hind))
            (head_pred_append hwh isWS hws _)]
          rw [hchild]
          dsimp only []
          rw [wle_true_eq, List.cons_append]
          rw [@nextNonWS_symbol ',' _ l3 p3 e (by decide)]
          dsimp only []
          rw [if_neg (by decide), if_pos rfl, hloop]
          rfl

/-! ## The recursion budget is covered by the written length -/

theorem cost_mem_entries :
    ∀ (d : List (List Char × Val)) (k : List Char) (c : Val),
      (k, c) ∈ d → cost c + 2 ≤ costEntries d := by
  intro d
  induction d with
  | nil => intro k c h; cases h
  | cons e0 r ih =>
    intro k c h
    obtain ⟨k1, c1⟩ := e0
    rw [costEntries]
    cases h with
    | head => omega
    | tail _ h2 =>
      have := ih k c h2
      omega

theorem cost_mem_seq :
    ∀ (lst : List Val) (c : Val), c ∈ lst → cost c + 2 ≤ costSeq lst := by
  intro lst
  induction lst with
  | nil => intro c h; cases h
  | cons c1 r ih =>
    intro c h
    rw [costSeq]
    cases h with
    | head => omega
    | tail _ h2 =>
      have := ih c h2
      omega

theorem escape_len (k : List Char) : 2 ≤ (escape k).length := by
  rw [escape]
  simp

theorem ip_len (ind : List Char) : 3 ≤ (ind ++ threeSp).length := by
  rw [List.length_append, show threeSp.length = 3 from rfl]
  omega

theorem costE_le_wde :
    ∀ (d : List (List Char × Val)) (ip : List Char) (b : Bool),
      3 ≤ ip.length →
      (∀ k c, (k, c) ∈ d → ∀ ind2, cost c ≤ (write c ind2).length + 1) →
      costEntries d ≤ (writeDictEntries d ip b).length := by
  intro d
  induction d with
  | nil =>
    intro ip b _ _
    rw [costEntries, writeDictEntries]
    exact Nat.le_refl _
  | cons e0 dr ihe =>
    intro ip b hip hmem
    obtain ⟨k0, c0⟩ := e0
    rw [costEntries, writeDictEntries]
    have h1 := hmem k0 c0 (by simp) ip
    have h2 := ihe ip true hip (fun k c h ind2 => hmem k c (by simp [h]) ind2)
    have hesc := escape_len k0
    cases b with
    | false =>
      rw [if_neg (by decide)]
      simp only [List.nil_append, List.length_append, List.length_cons,
        List.length_nil]
      omega
    | true =>
      rw [if_pos rfl]
      simp only [List.length_append, List.length_cons, List.length_nil]
      omega

theorem costS_le_wle :
    ∀ (lst : List Val) (ip : List Char) (b : Bool),
      3 ≤ ip.length →
      (∀ c, c ∈ lst → ∀ ind2, cost c ≤ (write c ind2).length + 1) →
      costSeq lst ≤ (writeListEntries lst ip b).length := by
  intro lst
  induction lst with
  | nil =>
    intro ip b _ _
    rw [costSeq, writeListEntries]
    exact Nat.le_refl _
  | cons c0 er ihe =>
    intro ip b hip hmem
    rw [costSeq, writeListEntries]
    have h1 := hmem c0 (by simp) ip
    have h2 := ihe ip true hip (fun c h ind2 => hmem c (by simp [h]) ind2)
    cases b with
    | false =>
      rw [if_neg (by decide)]
      simp only [List.nil_append, List.length_append, List.length_cons,
        List.length_nil]
      omega
    | true =>
      rw [if_pos rfl]
      simp only [List.length_append, List.length_cons, List.length_nil]
      omega

theorem cost_le_write :
    ∀ n t, cost t ≤ n → ∀ ind, cost t ≤ (write t ind).length + 1 := by
  intro n
  induction n with
  | zero =>
    intro t hc
    have := cost_pos t
    omega
  | succ n ih =>
    intro t hc ind
    obtain ⟨d, id, lst, il, v⟩ := t
    rw [cost] at hc ⊢
    rw [write]
    by_cases hd : id = true
    · rw [if_pos hd] at hc
      rw [if_pos hd, if_pos hd]
      cases d with
      | nil =>
        rw [if_pos (show ([] : List (List Char × Val)).isEmpty = true
          from rfl), costEntries]
        decide
      | cons e0 dr =>
        rw [if_neg (by simp)]
        have hmem : ∀ k c, (k, c) ∈ e0 :: dr → ∀ ind2,
            cost c ≤ (write c ind2).length + 1 := by
          intro k c hm ind2
          have hle := cost_mem_entries (e0 :: dr) k c hm
          exact ih c (by omega) ind2
        have hent := costE_le_wde (e0 :: dr) (ind ++ threeSp) false
          (ip_len ind) hmem
        simp only [List.length_cons, List.length_append]
        omega
    · rw [if_neg hd] at hc
      rw [if_neg hd, if_neg hd]
      by_cases hl : il = true
      · rw [if_pos hl] at hc
        rw [if_pos hl, if_pos hl]
        cases lst with
        | nil =>
          rw [if_pos (show ([] : List Val).isEmpty = true from rfl),
            costSeq]
          decide
        | cons c0 er =>
          rw [if_neg (by simp)]
          have hmem : ∀ c, c ∈ c0 :: er → ∀ ind2,
              cost c ≤ (write c ind2).length + 1 := by
            intro c hm ind2
            have hle := cost_mem_seq (c0 :: er) c hm
            exact ih c (by omega) ind2
          have hent := costS_le_wle (c0 :: er) (ind ++ threeSp) false
            (ip_len ind) hmem
          simp only [List.length_cons, List.length_append]
          omega
      · rw [if_neg hl] at hc
        rw [if_neg hl, if_neg hl]
        omega

theorem cost_le_full (t : Val) (ind : List Char) :
    cost t ≤ (write t ind).length + 1 :=
  cost_le_write (cost t) t (Nat.le_refl _) ind

/-! ## Reserializing the cleaned tree is byte-identical -/

theorem wde_clean :
    ∀ (d : List (List Char × Val)) (ip : List Char) (b : Bool),
      (∀ k c, (k, c) ∈ d → ∀ ind2, write (clean c) ind2 = write c ind2) →
      writeDictEntries (cleanEntries d) ip b = writeDictEntries d ip b := by
  intro d
  induction d with
  | nil => intro ip b _; rfl
  | cons e0 dr ihe =>
    intro ip b hmem
    obtain ⟨k0, c0⟩ := e0
    rw [cleanEntries, writeDictEntries, writeDictEntries,
      hmem k0 c0 (by simp) ip,
      ihe ip true (fun k c h ind2 => hmem k c (by simp [h]) ind2)]

theorem wle_clean :
    ∀ (lst : List Val) (ip : List Char) (b : Bool),
      (∀ c, c ∈ lst → ∀ ind2, write (clean c) ind2 = write c ind2) →
      writeListEntries (cleanSeq lst) ip b = writeListEntries lst ip b := by
  intro lst
  induction lst with
  | nil => intro ip b _; rfl
  | cons c0 er ihe =>
    intro ip b hmem
    rw [cleanSeq, writeListEntries, writeListEntries,
      hmem c0 (by simp) ip,
      ihe ip true (fun c h ind2 => hmem c (by simp [h]) ind2)]

theorem clean_write_aux :
    ∀ n t, cost t ≤ n → ∀ ind, write (clean t) ind = write t ind := by
  intro n
  induction n with
  | zero =>
    intro t hc
    have := cost_pos t
    omega
  | succ n ih =>
    intro t hc ind
    obtain ⟨d, id, lst, il, v⟩ := t
    rw [cost] at hc
    rw [clean]
    by_cases hd : id = true
    · rw [if_pos hd] at hc ⊢
      rw [write, write, if_pos rfl, if_pos hd]
      cases d with
      | nil => rfl
      | cons e0 dr =>
        obtain ⟨k0, c0⟩ := e0
        rw [if_neg (by simp [cleanEntries]), if_neg (by simp)]
        have hmem : ∀ k c, (k, c) ∈ (k0, c0) :: dr → ∀ ind2,
            write (clean c) ind2 = write c ind2 := by
          intro k c hm ind2
          have hle := cost_mem_entries ((k0, c0) :: dr) k c hm
          exact ih c (by omega) ind2
        rw [wde_clean ((k0, c0) :: dr) (ind ++ threeSp) false hmem]
    · rw [if_neg hd] at hc ⊢
      by_cases hl : il = true
      · rw [if_pos hl] at hc ⊢
        rw [write, write, if_neg (by decide), if_pos rfl, if_neg hd,
          if_pos hl]
        cases lst with
        | nil => rfl
        | cons c0 er =>
          rw [if_neg (by simp [cleanSeq]), if_neg (by simp)]
          have hmem : ∀ c, c ∈ c0 :: er → ∀ ind2,
              write (clean c) ind2 = write c ind2 := by
            intro c hm ind2
            have hle := cost_mem_seq (c0 :: er) c hm
            exact ih c (by omega) ind2
          rw [wle_clean (c0 :: er) (ind ++ threeSp) false hmem]
      · rw [if_neg hl]
        rw [write, write, if_neg (by decide), if_neg (by decide),
          if_neg hd, if_neg hl]

theorem clean_write (t : Val) (ind : List Char) :
    write (clean t) ind = write t ind :=
  clean_write_aux (cost t) t (Nat.le_refl _) ind

/-! ## Claim C1: the write-read-write round trip -/

/-- Claim C1, counterexample: the round trip fails for programmatically
built trees in general.  The scalar node with text `a b` writes as `a b`,
but `read` parses back only the single WORD token `a`, so the second
write (`a`) differs from the first (`a b`). -/
theorem c1_counterexample :
    readFull (write (mkScalar ['a', ' ', 'b']) []) =
      some (some (mkScalar ['a']), ⟨[' ', 'b'], 1, 2, []⟩) ∧
    write (mkScalar ['a']) [] ≠ write (mkScalar ['a', ' ', 'b']) [] :=
  ⟨rfl, by decide⟩

/-- Claim C1 (corrected): for trees in which every scalar that `write`
serializes is one complete WORD or STRING token and object entries are in
`std::map` key order (`goodVal`), under any whitespace-only base
indentation, parsing the written text succeeds and re-serializing the
parsed tree with the same indentation is byte-identical to the first
write. -/
theorem c1_amended_round_trip (t : Val) (ind : List Char)
    (hg : goodVal t = true) (hind : ind.all isWS = true) :
    ∃ t2 st2, readFull (write t ind) = some (some t2, st2) ∧
      write t2 ind = write t ind := by
  obtain ⟨l2, p2, h⟩ := (read_write (2 * (write t ind).length + 1)).1 t ind
    [] 1 1 [] hg (by have := cost_le_full t ind; omega) hind
    (by intro c r hcr; cases hcr)
  rw [List.append_nil] at h
  exact ⟨clean t, ⟨[], l2, p2, []⟩, h, clean_write t ind⟩

/-- Witness for the corrected C1 at a concrete tree: the object with the
single entry mapping key a to the scalar 1, under empty indentation. -/
theorem c1_amended_round_trip_witness :
    goodVal (Val.mk [(['a'], mkScalar ['1'])] true [] false []) = true ∧
    (([] : List Char).all isWS = true) ∧
    ∃ t2 st2,
      readFull (write (Val.mk [(['a'], mkScalar ['1'])] true [] false [])
        []) = some (some t2, st2) ∧
      write t2 [] =
        write (Val.mk [(['a'], mkScalar ['1'])] true [] false []) [] :=
  ⟨by decide, by decide, c1_amended_round_trip _ [] (by decide) (by decide)⟩

end Tjson
